import Mathlib

/-!
# `resultsProcessor.go` of tfsec-pr-commenter-action

A shallow embedding of the Go file `resultsProcessor.go`:

* texts are lists of characters (`Str`), that is, valid UTF-8 strings; a Go
  `int` is an `Int` in the 64-bit two's-complement range, and the two arithmetic
  operations of the file (`+` in `shouldInclude`, `-` in `getRelevantResults`)
  wrap around;
* the two compiled patterns are values of a small regular-expression syntax,
  run by a backtracking matcher that lists the matches at a position in the
  priority order of Go's `regexp` package (leftmost-first);
* `strconv.Atoi`, `strings.ReplaceAll` and `Regexp.FindAllStringSubmatch`
  follow the Go standard library;
* the loops of `getRelevantResults` are recursive functions passing the
  accumulated slice, and the finding whose file name the loop overwrites,
  explicitly.
-/

namespace ResultsProcessor

/-! ## Texts and machine integers -/

/-- Go strings, as lists of characters. -/
abbrev Str := List Char

/-- Smallest value of a 64-bit Go `int`. -/
def minInt : Int := -9223372036854775808

/-- Largest value of a 64-bit Go `int`. -/
def maxInt : Int := 9223372036854775807

/-- Wrap-around of 64-bit two's-complement arithmetic. -/
def wrapInt (x : Int) : Int :=
  (x + 9223372036854775808) % 18446744073709551616 - 9223372036854775808

/-! ## Regular expressions of Go's `regexp` package

Only the constructs that occur in the two patterns of the file: begin of text,
a single character from a class, a repeated class (greedy or not), sequence and
capturing group. -/

/-- Syntax of the patterns. `rep p n g` repeats the class `p` at least `n` times,
greedily when `g` is true. -/
inductive Regex where
  | bol : Regex
  | cls : (Char → Bool) → Regex
  | rep : (Char → Bool) → Nat → Bool → Regex
  | cat : Regex → Regex → Regex
  | grp : Regex → Regex

/-- One way of matching at a position: the text consumed, the texts of the
capturing groups in the order of their opening parentheses, and what is left. -/
structure Match where
  consumed : Str
  caps : List Str
  rest : Str
deriving DecidableEq, Repr

/-- All ways of repeating the class `p` at least `n` times at the head of the
text, as pairs (consumed, rest), in priority order: longest first when greedy,
shortest first otherwise. -/
def repRun (p : Char → Bool) (greedy : Bool) : Nat → Str → List (Str × Str)
  | 0, [] => [([], [])]
  | 0, c :: s =>
    let more := if p c then (repRun p greedy 0 s).map (fun x => (c :: x.1, x.2)) else []
    if greedy then more ++ [([], c :: s)] else ([], c :: s) :: more
  | _ + 1, [] => []
  | n + 1, c :: s =>
    if p c then (repRun p greedy n s).map (fun x => (c :: x.1, x.2)) else []

/-- All matches of a pattern at the head of the text, in the priority order of
a backtracking matcher; `atStart` tells whether the position is the beginning
of the whole text. -/
def run : Regex → Bool → Str → List Match
  | .bol, atStart, s => if atStart then [⟨[], [], s⟩] else []
  | .cls _, _, [] => []
  | .cls p, _, c :: s => if p c then [⟨[c], [], s⟩] else []
  | .rep p n g, _, s => (repRun p g n s).map fun x => ⟨x.1, [], x.2⟩
  | .cat a b, atStart, s =>
    (run a atStart s).flatMap fun m =>
      (run b (atStart && m.consumed.isEmpty) m.rest).map fun m2 =>
        ⟨m.consumed ++ m2.consumed, m.caps ++ m2.caps, m2.rest⟩
  | .grp r, atStart, s =>
    (run r atStart s).map fun m => ⟨m.consumed, m.consumed :: m.caps, m.rest⟩

/-- Leftmost match: the preferred match at the first position that has one,
with the number of characters skipped before it. -/
def findFrom (re : Regex) : Bool → Str → Option (Nat × Match)
  | atStart, [] => ((run re atStart []).head?).map fun m => (0, m)
  | atStart, c :: t =>
    match (run re atStart (c :: t)).head? with
    | some m => some (0, m)
    | none => (findFrom re false t).map fun x => (x.1 + 1, x.2)

/-- The loop of `FindAllStringSubmatch(s, -1)`: successive non-overlapping
matches, each as the matched text followed by its submatches. `prevHere` tells
whether the previous match ended at the current position: an empty match there
is dropped, and after an empty match the search moves on by one character. -/
def findAllLoop (re : Regex) : Nat → Bool → Bool → Str → List (List Str)
  | 0, _, _, _ => []
  | fuel + 1, atStart, prevHere, s =>
    match findFrom re atStart s with
    | none => []
    | some (k, m) =>
      if k = 0 ∧ m.consumed = [] then
        let out := if prevHere then [] else [m.consumed :: m.caps]
        match s with
        | [] => out
        | _ :: t => out ++ findAllLoop re fuel false false t
      else
        (m.consumed :: m.caps) :: findAllLoop re fuel false true m.rest

/-- `re.FindAllStringSubmatch(s, -1)`. Every round of the loop but the last
moves at least one character forward, so `s.length + 2` rounds suffice. -/
def FindAllStringSubmatch (re : Regex) (s : Str) : List (List Str) :=
  findAllLoop re (s.length + 2) true false s

/-- A literal character. -/
def lit (c : Char) : Regex := .cls fun x => x == c

/-- The class `.`: any character but the line feed. -/
def dot : Char → Bool := fun c => c != '\n'

/-- The class `\d`: the ASCII digits. -/
def digit : Char → Bool := fun c => '0' ≤ c && c ≤ '9'

/-- Sequence of one or more patterns. -/
def seq : Regex → List Regex → Regex
  | r, [] => r
  | r, x :: xs => .cat r (seq x xs)

/-- The pattern `^@@.*\+(\d+),(\d+).+?@@`. -/
def patchRegex : Regex :=
  seq .bol [lit '@', lit '@', .rep dot 0 true, lit '+', .grp (.rep digit 1 true), lit ',',
    .grp (.rep digit 1 true), .rep dot 1 false, lit '@', lit '@']

/-- The pattern `.+ref=(.+)`. -/
def commitRefRegex : Regex :=
  seq (.rep dot 1 true) [lit 'r', lit 'e', lit 'f', lit '=', .grp (.rep dot 1 true)]

/-- The part of `patchRegex` that follows `^@@.*`. -/
def patchTail : Regex :=
  seq (lit '+') [.grp (.rep digit 1 true), lit ',', .grp (.rep digit 1 true),
    .rep dot 1 false, lit '@', lit '@']

/-- The part of `commitRefRegex` that follows the leading `.+`. -/
def refTail : Regex := seq (lit 'r') [lit 'e', lit 'f', lit '=', .grp (.rep dot 1 true)]

/-! ## `strconv.Atoi` and `strings.ReplaceAll` -/

/-- Value of a non-empty string of ASCII digits, `none` for any other text. -/
def digitsValue : Str → Option Nat
  | [] => none
  | s => if s.all digit then some (s.foldl (fun n c => n * 10 + (c.toNat - 48)) 0) else none

/-- `strconv.Atoi`: the value and whether the conversion succeeded. A syntax
error gives 0; a value out of range gives the nearest bound of `int`. -/
def Atoi (s : Str) : Int × Bool :=
  match s with
  | [] => (0, false)
  | '-' :: t =>
    match digitsValue t with
    | none => (0, false)
    | some n => if (n : Int) ≤ 9223372036854775808 then (-(n : Int), true) else (minInt, false)
  | '+' :: t =>
    match digitsValue t with
    | none => (0, false)
    | some n => if (n : Int) ≤ maxInt then ((n : Int), true) else (maxInt, false)
  | t =>
    match digitsValue t with
    | none => (0, false)
    | some n => if (n : Int) ≤ maxInt then ((n : Int), true) else (maxInt, false)

/-- Left-to-right replacement of the non-overlapping occurrences of a non-empty
`old`; `skip` counts the characters of the occurrence being replaced that are
still to be dropped. -/
def replaceLoop (old new : Str) : Nat → Str → Str
  | _, [] => []
  | skip + 1, _ :: t => replaceLoop old new skip t
  | 0, c :: t =>
    if old.isPrefixOf (c :: t) then new ++ replaceLoop old new (old.length - 1) t
    else c :: replaceLoop old new 0 t

/-- `strings.ReplaceAll(s, old, new)`. An empty `old` matches before every
character and at the end. -/
def ReplaceAll (s old new : Str) : Str :=
  if old = [] then new ++ s.flatMap (fun c => c :: new) else replaceLoop old new 0 s

/-! ## Data model -/

/-- The fields of `github.CommitFile` that the file reads. `Filename` is
dereferenced unconditionally and is taken as present; `Patch` and `ContentsURL`
are read through the nil-safe getters. -/
structure CommitFile where
  Filename : Str
  Patch : Option Str
  ContentsURL : Option Str
deriving DecidableEq, Repr

/-- `GetPatch`: the patch, or the empty string when absent. -/
def CommitFile.GetPatch (file : CommitFile) : Str := file.Patch.getD []

/-- `GetContentsURL`: the URL, or the empty string when absent. -/
def CommitFile.GetContentsURL (file : CommitFile) : Str := file.ContentsURL.getD []

structure commitFileInfo where
  fileName : Str
  hunkStart : Int
  hunkEnd : Int
  sha : Str
deriving DecidableEq, Repr

structure commentBlock where
  fileName : Str
  startLine : Int
  endLine : Int
  position : Int
  sha : Str
  code : Str
  description : Str
  provider : Str
deriving DecidableEq, Repr

structure checkRange where
  Filename : Str
  StartLine : Int
  EndLine : Int
deriving DecidableEq, Repr

/-- A finding. `Range` is dereferenced unconditionally and is taken as present. -/
structure result where
  RuleID : Str
  RuleDescription : Str
  RuleProvider : Str
  Link : Str
  Range : checkRange
  Description : Str
  RangeAnnotation : Str
  Severity : Str
deriving DecidableEq, Repr

/-- Outcome of a Go function returning `(value, error)`. -/
inductive Outcome (α : Type) where
  | ok : α → Outcome α
  | err : String → Outcome α
deriving DecidableEq, Repr

/-! ## The functions of the file -/

def shouldInclude (result : result) (info : commitFileInfo) : Bool :=
  decide (result.Range.StartLine < wrapInt (info.hunkStart + info.hunkEnd)) &&
    decide (result.Range.StartLine > info.hunkStart)

def getCommitInfo (file : CommitFile) : Outcome commitFileInfo :=
  let groups := FindAllStringSubmatch patchRegex file.GetPatch
  if groups.length < 1 then .err "the patch details could not be resolved"
  else
    let hunkStart := (Atoi ((groups.getD 0 []).getD 1 [])).1
    let hunkEnd := (Atoi ((groups.getD 0 []).getD 2 [])).1
    let shaGroups := FindAllStringSubmatch commitRefRegex file.GetContentsURL
    if shaGroups.length < 1 then .err "the sha details could not be resolved"
    else
      let sha := (shaGroups.getD 0 []).getD 1 []
      .ok { fileName := file.Filename, hunkStart := hunkStart, hunkEnd := hunkEnd, sha := sha }

/-- The statement `result.Range.Filename = strings.ReplaceAll(...)` of the inner loop. -/
def stripWorkspace (workspacePath : Str) (r : result) : result :=
  { r with Range := { r.Range with Filename := ReplaceAll r.Range.Filename workspacePath [] } }

/-- The inner loop `for _, file := range prFiles` for one finding: the finding's
file name is overwritten at every round, the first error ends everything. -/
def filesLoop (workspacePath : Str) :
    List CommitFile → result → List commentBlock → Outcome (List commentBlock)
  | [], _, commentBlocks => .ok commentBlocks
  | file :: files, result0, commentBlocks =>
    let result := stripWorkspace workspacePath result0
    if result.Range.Filename = file.Filename then
      match getCommitInfo file with
      | .err e => .err e
      | .ok info =>
        if shouldInclude result info then
          filesLoop workspacePath files result (commentBlocks ++ [{
            fileName := info.fileName
            startLine := result.Range.StartLine
            endLine := result.Range.EndLine
            position := wrapInt (result.Range.StartLine - info.hunkStart)
            sha := info.sha
            code := result.RuleID
            description := result.Description
            provider := result.RuleProvider }])
        else filesLoop workspacePath files result commentBlocks
    else filesLoop workspacePath files result commentBlocks

/-- The outer loop `for _, result := range results`. -/
def resultsLoop (workspacePath : Str) (prFiles : List CommitFile) :
    List result → List commentBlock → Outcome (List commentBlock)
  | [], commentBlocks => .ok commentBlocks
  | result :: results, commentBlocks =>
    match filesLoop workspacePath prFiles result commentBlocks with
    | .err e => .err e
    | .ok commentBlocks2 => resultsLoop workspacePath prFiles results commentBlocks2

/-- `getRelevantResults`, with the value of the environment variable
`GITHUB_WORKSPACE` and the outcome of `loadResultsFile` as arguments. -/
def getRelevantResults (GITHUB_WORKSPACE : Str) (loaded : Outcome (List result))
    (prFiles : List CommitFile) : Outcome (List commentBlock) :=
  let workspacePath := GITHUB_WORKSPACE ++ ['/']
  match loaded with
  | .err e => .err e
  | .ok results => resultsLoop workspacePath prFiles results []

/-! ## Notions used to state the properties -/

/-- A pattern none of whose character classes accepts the line feed. -/
def Regex.noLF : Regex → Bool
  | .bol => true
  | .cls p => !p '\n'
  | .rep p _ _ => !p '\n'
  | .cat a b => a.noLF && b.noLF
  | .grp r => r.noLF

/-- The number written by a string of decimal digits. -/
def decimalValue (s : Str) : Nat :=
  Nat.ofDigits 10 (s.reverse.map fun c => c.toNat - '0'.toNat)

/-- A non-empty string of decimal digits. -/
def IsNumber (s : Str) : Prop := s ≠ [] ∧ ∀ c ∈ s, digit c = true

/-- The path of a finding after one round of normalization: every occurrence of
the workspace root followed by `/` is removed. -/
def normalizedPath (root : Str) (r : result) : Str :=
  ReplaceAll r.Range.Filename (root ++ ['/']) []

/-- A hunk header `@@ -a,b +s,c @@` with both counts written. -/
def IsHunkHeader (h : Str) : Prop :=
  ∃ a b s c, IsNumber a ∧ IsNumber b ∧ IsNumber s ∧ IsNumber c ∧
    h = "@@ -".toList ++ a ++ ",".toList ++ b ++ " +".toList ++ s ++ ",".toList ++ c ++
      " @@".toList

/-- The text contains a hunk header with both counts written. -/
def ContainsHunkHeader (patch : Str) : Prop := ∃ h, IsHunkHeader h ∧ h <:+: patch

/-- The text starts with `@@`, later on its first line come `+`, a number, a
comma, a number, at least one more character and `@@`. -/
def StartsWithLooseHeader (patch : Str) : Prop :=
  ∃ x s c y z, IsNumber s ∧ IsNumber c ∧ y ≠ [] ∧ '\n' ∉ x ∧ '\n' ∉ y ∧
    patch = "@@".toList ++ x ++ "+".toList ++ s ++ ",".toList ++ c ++ y ++ "@@".toList ++ z

/-- A finding with the given location. -/
def findingAt (path : Str) (startLine endLine : Int) : result :=
  { RuleID := "AWS002".toList
    RuleDescription := "S3 buckets should have logging".toList
    RuleProvider := "aws".toList
    Link := "https://tfsec.dev/docs/aws/AWS002/".toList
    Range := { Filename := path, StartLine := startLine, EndLine := endLine }
    Description := "Resource does not have logging enabled.".toList
    RangeAnnotation := []
    Severity := "ERROR".toList }

/-- A changed file with the given path, patch and contents URL. -/
def changedFile (path patch url : String) : CommitFile :=
  { Filename := path.toList, Patch := some patch.toList, ContentsURL := some url.toList }

/-- How an annotation of the output comes from a finding and a changed file. -/
def Origin (ws : Str) (files : List CommitFile) (r : result) (b : commentBlock) : Prop :=
  ∃ f ∈ files, ∃ info k, 0 < k ∧ (fun p => ReplaceAll p ws [])^[k] r.Range.Filename = f.Filename ∧
    getCommitInfo f = .ok info ∧ shouldInclude r info = true ∧
    b = { fileName := info.fileName
          startLine := r.Range.StartLine
          endLine := r.Range.EndLine
          position := wrapInt (r.Range.StartLine - info.hunkStart)
          sha := info.sha
          code := r.RuleID
          description := r.Description
          provider := r.RuleProvider }

/-- The annotation built for a finding and the hunk info of a changed file. -/
def annotationOf (r : result) (info : commitFileInfo) : commentBlock :=
  { fileName := info.fileName
    startLine := r.Range.StartLine
    endLine := r.Range.EndLine
    position := wrapInt (r.Range.StartLine - info.hunkStart)
    sha := info.sha
    code := r.RuleID
    description := r.Description
    provider := r.RuleProvider }

/-- The annotation, if any, of a finding and the changed file at position `j` of
the list: the file's path is compared with the finding's path after `j + 1`
rounds of normalization. -/
def annotationOfPair (ws : Str) (r : result) (x : Nat × CommitFile) : Option commentBlock :=
  if (fun p => ReplaceAll p ws [])^[x.1 + 1] r.Range.Filename = x.2.Filename then
    match getCommitInfo x.2 with
    | .ok info => if shouldInclude r info then some (annotationOf r info) else none
    | .err _ => none
  else none

/-- The annotations of the findings, in the order of the finding list and, for
one finding, in the order of the changed-file list. -/
def annotationsInOrder (root : Str) (results : List result) (files : List CommitFile) :
    List commentBlock :=
  results.flatMap fun r => files.enum.filterMap (annotationOfPair (root ++ ['/']) r)

/-! # Lemmas -/

/-! ## Machine integers -/

theorem wrapInt_eq_self {x : Int} (h1 : minInt ≤ x) (h2 : x ≤ maxInt) : wrapInt x = x := by
  unfold wrapInt; unfold minInt at h1; unfold maxInt at h2; omega

theorem wrapInt_le (x : Int) : wrapInt x ≤ maxInt := by
  unfold wrapInt maxInt; omega

theorem le_wrapInt (x : Int) : minInt ≤ wrapInt x := by
  unfold wrapInt minInt; omega

/-! ## The matcher -/

theorem repRun_sound (p : Char → Bool) (g : Bool) :
    ∀ (s : Str) (n : Nat) (x : Str × Str), x ∈ repRun p g n s →
      s = x.1 ++ x.2 ∧ (∀ c ∈ x.1, p c = true) ∧ n ≤ x.1.length := by
  intro s
  induction s with
  | nil =>
    intro n x hx
    cases n with
    | zero => simp [repRun] at hx; subst hx; simp
    | succ n => simp [repRun] at hx
  | cons c s ih =>
    intro n x hx
    cases n with
    | zero =>
      have key : x = ([], c :: s) ∨ (p c = true ∧ ∃ y ∈ repRun p g 0 s, x = (c :: y.1, y.2)) := by
        cases g <;> by_cases hp : p c = true <;> simp [repRun, hp] at hx
        · rcases hx with h | ⟨a, b, hab, rfl⟩
          · exact Or.inl h
          · exact Or.inr ⟨hp, (a, b), hab, rfl⟩
        · exact Or.inl hx
        · rcases hx with ⟨a, b, hab, rfl⟩ | h
          · exact Or.inr ⟨hp, (a, b), hab, rfl⟩
          · exact Or.inl h
        · exact Or.inl hx
      rcases key with rfl | ⟨hp, y, hy, rfl⟩
      · simp
      · obtain ⟨h1, h2, _⟩ := ih 0 y hy
        refine ⟨by simp [h1], ?_, Nat.zero_le _⟩
        intro d hd
        rcases List.mem_cons.1 hd with rfl | hd
        · exact hp
        · exact h2 d hd
    | succ n =>
      by_cases hp : p c = true
      · simp [repRun, hp] at hx
        obtain ⟨a, b, hab, rfl⟩ := hx
        obtain ⟨h1, h2, h3⟩ := ih n (a, b) hab
        refine ⟨by simpa using h1, ?_, by simpa using h3⟩
        intro d hd
        rcases List.mem_cons.1 hd with rfl | hd
        · exact hp
        · exact h2 d hd
      · simp [repRun, hp] at hx

/-- Greedy repetition over `u ++ v`, all of `u` in the class: the split `(u, v)`
is tried after exactly the splits that consume more than `u`. -/
theorem repRun_greedy_split (p : Char → Bool) (v : Str) :
    ∀ u : Str, (∀ c ∈ u, p c = true) →
      ∃ L1 L2, repRun p true 0 (u ++ v) = L1 ++ (u, v) :: L2 ∧
        ∀ x ∈ L1, ∃ v1, v1 ≠ [] ∧ x.1 = u ++ v1 ∧ v = v1 ++ x.2 ∧ ∀ c ∈ v1, p c = true := by
  intro u
  induction u with
  | nil =>
    intro _
    cases v with
    | nil => exact ⟨[], [], by simp [repRun], by simp⟩
    | cons c t =>
      refine ⟨if p c then (repRun p true 0 t).map (fun x => (c :: x.1, x.2)) else [], [],
        by simp [repRun], ?_⟩
      intro x hx
      by_cases hp : p c = true
      · simp [hp] at hx
        obtain ⟨a, b, hab, rfl⟩ := hx
        obtain ⟨h1, h2, _⟩ := repRun_sound p true t 0 (a, b) hab
        refine ⟨c :: a, by simp, by simp, by simpa using h1, ?_⟩
        intro d hd
        rcases List.mem_cons.1 hd with rfl | hd
        · exact hp
        · exact h2 d hd
      · simp [hp] at hx
  | cons c u ih =>
    intro hu
    have hc : p c = true := hu c (by simp)
    obtain ⟨L1, L2, hL, hL1⟩ := ih (fun d hd => hu d (by simp [hd]))
    refine ⟨L1.map (fun x => (c :: x.1, x.2)),
      L2.map (fun x => (c :: x.1, x.2)) ++ [([], c :: (u ++ v))], ?_, ?_⟩
    · simp [repRun, hc, hL]
    · intro x hx
      obtain ⟨y, hy, rfl⟩ := List.mem_map.1 hx
      obtain ⟨v1, h1, h2, h3, h4⟩ := hL1 y hy
      exact ⟨v1, h1, by simp [h2], h3, h4⟩

/-- Greedy repetition prefers the longest run of the class. -/
theorem repRun_greedy_head (p : Char → Bool) (v : Str) (hv : ∀ c t, v = c :: t → p c = false) :
    ∀ u : Str, (∀ c ∈ u, p c = true) → (repRun p true 0 (u ++ v)).head? = some (u, v) := by
  intro u
  induction u with
  | nil =>
    intro _
    cases v with
    | nil => simp [repRun]
    | cons c t => simp [repRun, hv c t rfl]
  | cons c u ih =>
    intro hu
    have hc : p c = true := hu c (by simp)
    have := ih (fun d hd => hu d (by simp [hd]))
    simp [repRun, hc, List.head?_append, List.head?_map, this]

/-- Lazy repetition prefers to consume nothing. -/
theorem repRun_lazy_head (p : Char → Bool) (s : Str) :
    (repRun p false 0 s).head? = some ([], s) := by
  cases s <;> simp [repRun]

theorem run_split : ∀ (re : Regex) (b : Bool) (s : Str) (m : Match),
    m ∈ run re b s → s = m.consumed ++ m.rest := by
  intro re
  induction re with
  | bol =>
    intro b s m hm
    cases b <;> simp [run] at hm
    subst hm; rfl
  | cls p =>
    intro b s m hm
    cases s with
    | nil => simp [run] at hm
    | cons c s =>
      by_cases hp : p c = true <;> simp [run, hp] at hm
      subst hm; rfl
  | rep p n g =>
    intro b s m hm
    simp only [run, List.mem_map] at hm
    obtain ⟨x, hx, rfl⟩ := hm
    exact (repRun_sound p g s n x hx).1
  | cat a k iha ihk =>
    intro b s m hm
    simp only [run, List.mem_flatMap, List.mem_map] at hm
    obtain ⟨m1, h1, m2, h2, rfl⟩ := hm
    have e1 := iha b s m1 h1
    have e2 := ihk _ _ m2 h2
    simp [e1, e2]
  | grp r ih =>
    intro b s m hm
    simp only [run, List.mem_map] at hm
    obtain ⟨m1, h1, rfl⟩ := hm
    exact ih b s m1 h1

theorem mem_run_cat_lit {c : Char} {k : Regex} {b : Bool} {s : Str} {m : Match}
    (h : m ∈ run (.cat (lit c) k) b s) :
    ∃ t m2, s = c :: t ∧ m2 ∈ run k false t ∧
      m = ⟨c :: m2.consumed, m2.caps, m2.rest⟩ := by
  cases s with
  | nil => simp [run, lit] at h
  | cons d t =>
    by_cases hd : d = c
    · subst hd
      simp [run, lit] at h
      obtain ⟨m2, h2, rfl⟩ := h
      exact ⟨t, m2, rfl, h2, rfl⟩
    · simp [run, lit, hd] at h

theorem run_cat_lit_cons (c : Char) (k : Regex) (b : Bool) (t : Str) :
    run (.cat (lit c) k) b (c :: t) =
      (run k false t).map fun m2 => ⟨c :: m2.consumed, m2.caps, m2.rest⟩ := by
  simp [run, lit]

theorem run_lit_cons (c : Char) (b : Bool) (t : Str) :
    run (lit c) b (c :: t) = [⟨[c], [], t⟩] := by
  simp [run, lit]

theorem mem_run_lit {c : Char} {b : Bool} {s : Str} {m : Match} (h : m ∈ run (lit c) b s) :
    s = c :: m.rest ∧ m.consumed = [c] ∧ m.caps = [] := by
  cases s with
  | nil => simp [run, lit] at h
  | cons d t =>
    by_cases hd : d = c
    · subst hd
      simp [run, lit] at h
      subst h
      exact ⟨rfl, rfl, rfl⟩
    · simp [run, lit, hd] at h

theorem run_cat_rep_eq (p : Char → Bool) (n : Nat) (g : Bool) (k : Regex) (b : Bool) (s : Str) :
    run (.cat (.rep p n g) k) b s =
      (repRun p g n s).flatMap fun x =>
        (run k (b && x.1.isEmpty) x.2).map fun m2 => ⟨x.1 ++ m2.consumed, m2.caps, m2.rest⟩ := by
  simp [run, List.flatMap_map]

theorem run_cat_grp_rep_eq (p : Char → Bool) (n : Nat) (g : Bool) (k : Regex) (b : Bool)
    (s : Str) :
    run (.cat (.grp (.rep p n g)) k) b s =
      (repRun p g n s).flatMap fun x =>
        (run k (b && x.1.isEmpty) x.2).map fun m2 =>
          ⟨x.1 ++ m2.consumed, x.1 :: m2.caps, m2.rest⟩ := by
  simp [run, List.flatMap_map]

theorem run_grp_rep_eq (p : Char → Bool) (n : Nat) (g : Bool) (b : Bool) (s : Str) :
    run (.grp (.rep p n g)) b s = (repRun p g n s).map fun x => ⟨x.1, [x.1], x.2⟩ := by
  simp [run]

theorem mem_run_cat_rep {p : Char → Bool} {n : Nat} {g : Bool} {k : Regex} {b : Bool} {s : Str}
    {m : Match} (h : m ∈ run (.cat (.rep p n g) k) b s) :
    ∃ d t m2, s = d ++ t ∧ (∀ c ∈ d, p c = true) ∧ n ≤ d.length ∧
      m2 ∈ run k (b && d.isEmpty) t ∧ m = ⟨d ++ m2.consumed, m2.caps, m2.rest⟩ := by
  rw [run_cat_rep_eq] at h
  simp only [List.mem_flatMap, List.mem_map] at h
  obtain ⟨x, hx, m2, h2, rfl⟩ := h
  obtain ⟨e, hp, hn⟩ := repRun_sound p g s n x hx
  exact ⟨x.1, x.2, m2, e, hp, hn, h2, rfl⟩

theorem mem_run_cat_grp_rep {p : Char → Bool} {n : Nat} {g : Bool} {k : Regex} {b : Bool}
    {s : Str} {m : Match} (h : m ∈ run (.cat (.grp (.rep p n g)) k) b s) :
    ∃ d t m2, s = d ++ t ∧ (∀ c ∈ d, p c = true) ∧ n ≤ d.length ∧
      m2 ∈ run k (b && d.isEmpty) t ∧ m = ⟨d ++ m2.consumed, d :: m2.caps, m2.rest⟩ := by
  rw [run_cat_grp_rep_eq] at h
  simp only [List.mem_flatMap, List.mem_map] at h
  obtain ⟨x, hx, m2, h2, rfl⟩ := h
  obtain ⟨e, hp, hn⟩ := repRun_sound p g s n x hx
  exact ⟨x.1, x.2, m2, e, hp, hn, h2, rfl⟩

theorem mem_run_grp_rep {p : Char → Bool} {n : Nat} {g : Bool} {b : Bool} {s : Str} {m : Match}
    (h : m ∈ run (.grp (.rep p n g)) b s) :
    s = m.consumed ++ m.rest ∧ (∀ c ∈ m.consumed, p c = true) ∧ n ≤ m.consumed.length ∧
      m.caps = [m.consumed] := by
  rw [run_grp_rep_eq] at h
  simp only [List.mem_map] at h
  obtain ⟨x, hx, rfl⟩ := h
  obtain ⟨e, hp, hn⟩ := repRun_sound p g s n x hx
  exact ⟨e, hp, hn, rfl⟩

theorem patchRegex_eq :
    patchRegex = .cat .bol (.cat (lit '@') (.cat (lit '@') (.cat (.rep dot 0 true) patchTail))) :=
  rfl

theorem commitRefRegex_eq : commitRefRegex = .cat (.rep dot 1 true) refTail := rfl

/-- What a match of `\+(\d+),(\d+).+?@@` looks like. -/
theorem mem_run_patchTail {b : Bool} {s : Str} {m : Match} (h : m ∈ run patchTail b s) :
    ∃ d1 d2 y, s = '+' :: (d1 ++ ',' :: (d2 ++ (y ++ '@' :: '@' :: m.rest))) ∧
      m.caps = [d1, d2] ∧ d1 ≠ [] ∧ (∀ c ∈ d1, digit c = true) ∧
      d2 ≠ [] ∧ (∀ c ∈ d2, digit c = true) ∧ y ≠ [] ∧ (∀ c ∈ y, dot c = true) := by
  unfold patchTail at h
  simp only [seq] at h
  obtain ⟨t, m2, rfl, h2, rfl⟩ := mem_run_cat_lit h
  obtain ⟨d1, t1, m3, rfl, hd1, hn1, h3, rfl⟩ := mem_run_cat_grp_rep h2
  obtain ⟨t2, m4, rfl, h4, rfl⟩ := mem_run_cat_lit h3
  obtain ⟨d2, t3, m5, rfl, hd2, hn2, h5, rfl⟩ := mem_run_cat_grp_rep h4
  obtain ⟨y, t4, m6, rfl, hy, hny, h6, rfl⟩ := mem_run_cat_rep h5
  obtain ⟨t5, m7, rfl, h7, rfl⟩ := mem_run_cat_lit h6
  obtain ⟨e7, -, c7⟩ := mem_run_lit h7
  refine ⟨d1, d2, y, ?_, ?_, ?_, hd1, ?_, hd2, ?_, hy⟩
  · simp [e7]
  · simp [c7]
  · intro h0; simp [h0] at hn1
  · intro h0; simp [h0] at hn2
  · intro h0; simp [h0] at hny

/-- What a match of `ref=(.+)` looks like. -/
theorem mem_run_refTail {b : Bool} {s : Str} {m : Match} (h : m ∈ run refTail b s) :
    ∃ v, s = 'r' :: 'e' :: 'f' :: '=' :: (v ++ m.rest) ∧ m.caps = [v] ∧ v ≠ [] ∧
      (∀ c ∈ v, dot c = true) := by
  unfold refTail at h
  simp only [seq] at h
  obtain ⟨t, m2, rfl, h2, rfl⟩ := mem_run_cat_lit h
  obtain ⟨t2, m3, rfl, h3, rfl⟩ := mem_run_cat_lit h2
  obtain ⟨t3, m4, rfl, h4, rfl⟩ := mem_run_cat_lit h3
  obtain ⟨t4, m5, rfl, h5, rfl⟩ := mem_run_cat_lit h4
  obtain ⟨e, hp, hn, hc⟩ := mem_run_grp_rep h5
  refine ⟨m5.consumed, by simp [← e], by simp [hc], ?_, hp⟩
  intro h0; simp [h0] at hn

/-! ## `FindAllStringSubmatch` -/

theorem FindAll_of_none {re : Regex} {s : Str} (h : findFrom re true s = none) :
    FindAllStringSubmatch re s = [] := by
  simp [FindAllStringSubmatch, findAllLoop, h]

theorem FindAll_of_some {re : Regex} {s : Str} {k : Nat} {m : Match}
    (h : findFrom re true s = some (k, m)) :
    ∃ tl, FindAllStringSubmatch re s = (m.consumed :: m.caps) :: tl := by
  simp only [FindAllStringSubmatch, findAllLoop, h]
  split
  · cases s <;> simp
  · exact ⟨_, rfl⟩

/-- A leftmost match splits the text into the characters skipped, the text
consumed and the rest. -/
theorem findFrom_split (re : Regex) : ∀ (s : Str) (b : Bool) (x : Nat × Match),
    findFrom re b s = some x →
      ∃ t, t.length = x.1 ∧ s = t ++ (x.2.consumed ++ x.2.rest) := by
  intro s
  induction s with
  | nil =>
    intro b x h
    simp only [findFrom, Option.map_eq_some'] at h
    obtain ⟨m, hm, rfl⟩ := h
    exact ⟨[], rfl, run_split re b [] m (List.mem_of_mem_head? hm)⟩
  | cons c t ih =>
    intro b x h
    simp only [findFrom] at h
    split at h
    · rename_i m hm
      simp only [Option.some.injEq] at h
      subst h
      exact ⟨[], rfl, run_split re b (c :: t) m (List.mem_of_mem_head? hm)⟩
    · simp only [Option.map_eq_some'] at h
      obtain ⟨y, hy, rfl⟩ := h
      obtain ⟨t1, h1, h2⟩ := ih false y hy
      exact ⟨c :: t1, by simp [h1], by simp [← h2]⟩

/-- More rounds than the text has characters never change the result of the
loop of `FindAllStringSubmatch`. -/
theorem findAllLoop_fuel (re : Regex) (k : Nat) :
    ∀ (n : Nat) (s : Str) (b p : Bool), s.length < n →
      findAllLoop re (n + k) b p s = findAllLoop re n b p s := by
  intro n
  induction n with
  | zero => intro s b p h; omega
  | succ n ih =>
    intro s b p h
    rw [show n + 1 + k = (n + k) + 1 by omega]
    simp only [findAllLoop]
    cases hf : findFrom re b s with
    | none => rfl
    | some x =>
      obtain ⟨j, m⟩ := x
      obtain ⟨t1, h1, h2⟩ := findFrom_split re s b (j, m) hf
      simp only at h1 h2
      by_cases hem : j = 0 ∧ m.consumed = []
      · simp only [hem, and_self, if_true]
        cases s with
        | nil => rfl
        | cons c t =>
          simp only
          rw [ih t false false (by simpa using h)]
      · simp only [hem, if_false]
        have hlen : m.rest.length < n := by
          have : s.length = j + (m.consumed.length + m.rest.length) := by
            rw [h2]; simp [h1]
          have : 0 < j + m.consumed.length := by
            rcases Nat.eq_zero_or_pos j with h0 | h0
            · have hc : m.consumed ≠ [] := fun hc => hem ⟨h0, hc⟩
              have := List.length_pos.2 hc
              omega
            · omega
          omega
        rw [ih m.rest false true hlen]

/-- The number of rounds given to the loop of `FindAllStringSubmatch` is enough. -/
theorem FindAllStringSubmatch_fuel (re : Regex) (s : Str) (k : Nat) :
    findAllLoop re (s.length + 2 + k) true false s = FindAllStringSubmatch re s :=
  findAllLoop_fuel re k (s.length + 2) s true false (by omega)

theorem run_patchRegex_false (s : Str) : run patchRegex false s = [] := by
  simp [patchRegex_eq, run]

theorem findFrom_patchRegex_false (s : Str) : findFrom patchRegex false s = none := by
  induction s with
  | nil => simp [findFrom, run_patchRegex_false]
  | cons c t ih => simp [findFrom, run_patchRegex_false, ih]

theorem findFrom_patchRegex (s : Str) :
    findFrom patchRegex true s = ((run patchRegex true s).head?).map fun m => (0, m) := by
  cases s with
  | nil => simp [findFrom]
  | cons c t =>
    simp only [findFrom]
    cases h : (run patchRegex true (c :: t)).head? with
    | none => simp [findFrom_patchRegex_false]
    | some m => simp

/-- The result of `getCommitInfo` in terms of the two leftmost matches. -/
theorem getCommitInfo_eq (file : CommitFile) :
    getCommitInfo file =
      match (run patchRegex true file.GetPatch).head? with
      | none => .err "the patch details could not be resolved"
      | some m =>
        match findFrom commitRefRegex true file.GetContentsURL with
        | none => .err "the sha details could not be resolved"
        | some x => .ok {
            fileName := file.Filename
            hunkStart := (Atoi (m.caps.getD 0 [])).1
            hunkEnd := (Atoi (m.caps.getD 1 [])).1
            sha := x.2.caps.getD 0 [] } := by
  unfold getCommitInfo
  cases h : (run patchRegex true file.GetPatch).head? with
  | none =>
    have h1 : findFrom patchRegex true file.GetPatch = none := by
      rw [findFrom_patchRegex, h]; rfl
    simp [FindAll_of_none h1]
  | some m =>
    have h1 : findFrom patchRegex true file.GetPatch = some (0, m) := by
      rw [findFrom_patchRegex, h]; rfl
    obtain ⟨tl, e1⟩ := FindAll_of_some h1
    cases h2 : findFrom commitRefRegex true file.GetContentsURL with
    | none => simp [e1, FindAll_of_none h2]
    | some x =>
      obtain ⟨k, m2⟩ := x
      obtain ⟨tl2, e2⟩ := FindAll_of_some h2
      simp [e1, e2]

/-! ## `Atoi` on digit strings -/

theorem digit_ne_sign {c : Char} (h : digit c = true) : c ≠ '-' ∧ c ≠ '+' := by
  constructor <;> rintro rfl <;> revert h <;> decide

/-- On a non-empty digit string `Atoi` gives a value between 0 and the largest `int`. -/
theorem Atoi_digits_range {d : Str} (h0 : d ≠ []) (hd : ∀ c ∈ d, digit c = true) :
    0 ≤ (Atoi d).1 ∧ (Atoi d).1 ≤ maxInt := by
  cases d with
  | nil => exact absurd rfl h0
  | cons c t =>
    obtain ⟨n1, n2⟩ := digit_ne_sign (hd c (by simp))
    have hall : (c :: t).all digit = true := List.all_eq_true.2 hd
    unfold Atoi
    split
    · simp_all
    · simp_all
    · simp_all
    · rename_i s hs1 hs2 hs3
      simp only [digitsValue, hall, if_true]
      split
      · simp [maxInt] at *; omega
      · simp [maxInt]

/-! ## Preferred matches of the two patterns -/

theorem flatMap_skip {α β : Type} (f : α → List β) (L1 : List α) (m : α) (L2 : List α)
    (h : ∀ x ∈ L1, f x = []) : (L1 ++ m :: L2).flatMap f = f m ++ L2.flatMap f := by
  rw [List.flatMap_append, List.flatMap_cons, List.flatMap_eq_nil_iff.2 h, List.nil_append]

theorem head?_append_of_head? {α : Type} {l : List α} {x : α} (h : l.head? = some x)
    (l2 : List α) : (l ++ l2).head? = some x := by
  simp [List.head?_append, h]

theorem repRun_succ_cons (p : Char → Bool) (g : Bool) (n : Nat) (c : Char) (s : Str)
    (hc : p c = true) :
    repRun p g (n + 1) (c :: s) = (repRun p g n s).map fun x => (c :: x.1, x.2) := by
  simp [repRun, hc]

/-- Greedy repetition with at least one round prefers the longest run. -/
theorem repRun_greedy_one_head (p : Char → Bool) (u : Str) (h0 : u ≠ [])
    (hu : ∀ c ∈ u, p c = true) : (repRun p true 1 u).head? = some (u, []) := by
  cases u with
  | nil => exact absurd rfl h0
  | cons c t =>
    have hc : p c = true := hu c (by simp)
    have := repRun_greedy_head p [] (by simp) t (fun d hd => hu d (by simp [hd]))
    simp only [List.append_nil] at this
    simp [repRun, hc, List.head?_map, this]

theorem run_refTail_head (value : Str) (h0 : value ≠ []) (hv : ∀ c ∈ value, dot c = true)
    (b : Bool) :
    (run refTail b ('r' :: 'e' :: 'f' :: '=' :: value)).head? =
      some ⟨'r' :: 'e' :: 'f' :: '=' :: value, [value], []⟩ := by
  unfold refTail
  simp only [seq, run_cat_lit_cons, run_grp_rep_eq, List.map_map, List.head?_map,
    repRun_greedy_one_head dot value h0 hv]
  rfl

/-- The preferred match of `.+ref=(.+)` at the head of a one-line text that ends
with `ref=` and a value in which no further usable `ref=` occurs. -/
theorem run_commitRefRegex_head (pre value : Str) (hpre : pre ≠ [])
    (hpreNL : ∀ c ∈ pre, dot c = true) (hval : value ≠ [])
    (hvNL : ∀ c ∈ value, dot c = true)
    (hv : ∀ x y, value = x ++ 'r' :: 'e' :: 'f' :: '=' :: y → y = []) (b : Bool) :
    (run commitRefRegex b (pre ++ 'r' :: 'e' :: 'f' :: '=' :: value)).head? =
      some ⟨pre ++ 'r' :: 'e' :: 'f' :: '=' :: value, [value], []⟩ := by
  cases pre with
  | nil => exact absurd rfl hpre
  | cons c pre =>
    have hc : dot c = true := hpreNL c (by simp)
    obtain ⟨L1, L2, hL, hL1⟩ := repRun_greedy_split dot ('r' :: 'e' :: 'f' :: '=' :: value) pre
      (fun d hd => hpreNL d (by simp [hd]))
    rw [commitRefRegex_eq, run_cat_rep_eq]
    rw [List.cons_append, repRun_succ_cons dot true 0 c _ hc, hL, List.map_append, List.map_cons,
      flatMap_skip]
    · apply head?_append_of_head?
      simp only [List.head?_map, run_refTail_head value hval hvNL]
      simp
    · intro x hx
      obtain ⟨y, hy, rfl⟩ := List.mem_map.1 hx
      obtain ⟨v1, h1, -, h3, -⟩ := hL1 y hy
      rw [List.map_eq_nil_iff]
      by_contra hne
      obtain ⟨m, hm⟩ := List.exists_mem_of_ne_nil _ hne
      obtain ⟨w, hw, -, hw0, -⟩ := mem_run_refTail hm
      simp only at hw
      rw [hw] at h3
      -- v1 is a non-empty prefix of `ref=` ++ value, and what is left starts with `ref=`
      rcases v1 with _ | ⟨a1, v1⟩
      · exact h1 rfl
      rcases v1 with _ | ⟨a2, v1⟩
      · simp at h3
      rcases v1 with _ | ⟨a3, v1⟩
      · simp at h3
      rcases v1 with _ | ⟨a4, v1⟩
      · simp at h3
      simp only [List.cons_append, List.cons.injEq] at h3
      have := hv v1 (w ++ m.rest) h3.2.2.2.2
      simp at this
      exact hw0 this.1

theorem head?_flatMap_of_head? {α β : Type} {l : List α} {x : α} {f : α → List β} {y : β}
    (h : l.head? = some x) (hy : (f x).head? = some y) : (l.flatMap f).head? = some y := by
  cases l with
  | nil => simp at h
  | cons a t =>
    simp only [List.head?_cons, Option.some.injEq] at h
    subst h
    simp [List.flatMap_cons, List.head?_append, hy]

theorem run_cat_bol (k : Regex) (s : Str) : run (.cat .bol k) true s = run k true s := by
  simp [run]

theorem digit_dot {c : Char} (h : digit c = true) : dot c = true := by
  by_cases hc : c = '\n'
  · subst hc; revert h; decide
  · simp [dot, hc]

/-- A text without line feed that starts a text also starts its first line. -/
theorem starts_first_line {X Y sec rest : Str} (h : X ++ Y = sec ++ rest)
    (hX : ∀ c ∈ X, dot c = true) (hrest : ∀ c t, rest = c :: t → c = '\n') :
    ∃ Z, sec = X ++ Z := by
  rcases List.append_eq_append_iff.1 h with ⟨a, h1, -⟩ | ⟨c, h1, h2⟩
  · exact ⟨a, h1⟩
  · cases c with
    | nil => exact ⟨[], by simpa using h1.symm⟩
    | cons d c =>
      have hd : d = '\n' := hrest d (c ++ Y) (by simpa using h2)
      have : dot d = true := hX d (by simp [h1])
      subst hd
      exact absurd this (by decide)

/-- Greedy repetition with at least one round, followed by a character outside
the class, prefers the longest run. -/
theorem repRun_greedy_one_head_append (p : Char → Bool) (u v : Str) (h0 : u ≠ [])
    (hu : ∀ c ∈ u, p c = true) (hv : ∀ c t, v = c :: t → p c = false) :
    (repRun p true 1 (u ++ v)).head? = some (u, v) := by
  cases u with
  | nil => exact absurd rfl h0
  | cons c t =>
    have hc : p c = true := hu c (by simp)
    have := repRun_greedy_head p v hv t (fun d hd => hu d (by simp [hd]))
    rw [List.cons_append, repRun_succ_cons p true 0 c _ hc, List.head?_map, this]
    rfl

/-- The preferred match of `\+(\d+),(\d+).+?@@` on `+s,c @@...`. -/
theorem run_patchTail_head (s c X : Str) (hs0 : s ≠ []) (hs : ∀ x ∈ s, digit x = true)
    (hc0 : c ≠ []) (hc : ∀ x ∈ c, digit x = true) (b : Bool) :
    (run patchTail b ('+' :: (s ++ ',' :: (c ++ ' ' :: '@' :: '@' :: X)))).head? =
      some ⟨'+' :: (s ++ ',' :: (c ++ ' ' :: '@' :: '@' :: [])), [s, c], X⟩ := by
  have h1 := repRun_greedy_one_head_append digit s (',' :: (c ++ ' ' :: '@' :: '@' :: X)) hs0 hs
    (by intro x t h; simp only [List.cons.injEq] at h; rw [← h.1]; decide)
  have h2 := repRun_greedy_one_head_append digit c (' ' :: '@' :: '@' :: X) hc0 hc
    (by intro x t h; simp only [List.cons.injEq] at h; rw [← h.1]; decide)
  have h3 : (repRun dot false 1 (' ' :: '@' :: '@' :: X)).head? = some ([' '], '@' :: '@' :: X) := by
    rw [repRun_succ_cons dot false 0 ' ' _ (by decide), List.head?_map, repRun_lazy_head]
    rfl
  have hA : ∀ b2, (run (.cat (lit '@') (lit '@')) b2 ('@' :: '@' :: X)).head? =
      some ⟨['@', '@'], [], X⟩ := by
    intro b2
    rw [run_cat_lit_cons, List.head?_map, run_lit_cons]
    rfl
  have hB : ∀ b2, (run (.cat (.rep dot 1 false) (.cat (lit '@') (lit '@'))) b2
      (' ' :: '@' :: '@' :: X)).head? = some ⟨[' ', '@', '@'], [], X⟩ := by
    intro b2
    rw [run_cat_rep_eq]
    refine head?_flatMap_of_head? h3 ?_
    rw [List.head?_map, hA]
    rfl
  have hC : ∀ b2, (run (.cat (.grp (.rep digit 1 true))
      (.cat (.rep dot 1 false) (.cat (lit '@') (lit '@')))) b2
      (c ++ ' ' :: '@' :: '@' :: X)).head? = some ⟨c ++ [' ', '@', '@'], [c], X⟩ := by
    intro b2
    rw [run_cat_grp_rep_eq]
    refine head?_flatMap_of_head? h2 ?_
    rw [List.head?_map, hB]
    rfl
  have hD : ∀ b2, (run (.cat (lit ',') (.cat (.grp (.rep digit 1 true))
      (.cat (.rep dot 1 false) (.cat (lit '@') (lit '@'))))) b2
      (',' :: (c ++ ' ' :: '@' :: '@' :: X))).head? =
      some ⟨',' :: (c ++ [' ', '@', '@']), [c], X⟩ := by
    intro b2
    rw [run_cat_lit_cons, List.head?_map, hC]
    rfl
  have hE : ∀ b2, (run (.cat (.grp (.rep digit 1 true)) (.cat (lit ',')
      (.cat (.grp (.rep digit 1 true))
      (.cat (.rep dot 1 false) (.cat (lit '@') (lit '@')))))) b2
      (s ++ ',' :: (c ++ ' ' :: '@' :: '@' :: X))).head? =
      some ⟨s ++ ',' :: (c ++ [' ', '@', '@']), [s, c], X⟩ := by
    intro b2
    rw [run_cat_grp_rep_eq]
    refine head?_flatMap_of_head? h1 ?_
    rw [List.head?_map, hD]
    rfl
  unfold patchTail
  simp only [seq]
  rw [run_cat_lit_cons, List.head?_map, hE]
  rfl

/-- Within the first line of `+s,c @@sec`, the pattern `\+(\d+),(\d+).+?@@` matches
at no later position, when `sec` has no `@@`. -/
theorem run_patchTail_later (s c sec rest v1 x2 : Str) (hs : ∀ x ∈ s, digit x = true)
    (hc : ∀ x ∈ c, digit x = true) (hsec : ¬ ['@', '@'] <:+: sec)
    (hrest : ∀ x t, rest = x :: t → x = '\n') (h1 : v1 ≠ [])
    (hv1 : ∀ x ∈ v1, dot x = true)
    (hsplit : '+' :: (s ++ ',' :: (c ++ ' ' :: '@' :: '@' :: (sec ++ rest))) = v1 ++ x2)
    (b : Bool) : run patchTail b x2 = [] := by
  by_contra hne
  obtain ⟨m, hm⟩ := List.exists_mem_of_ne_nil _ hne
  obtain ⟨d1, d2, y, hx2, -, -, hd1, -, hd2, -, hy⟩ := mem_run_patchTail hm
  cases v1 with
  | nil => exact h1 rfl
  | cons e v1 =>
    simp only [List.cons_append, List.cons.injEq] at hsplit
    obtain ⟨-, hsplit⟩ := hsplit
    -- the text from the later position on lies inside `sec`
    have key : ∃ c2, (∀ x ∈ c2, dot x = true) ∧ sec ++ rest = c2 ++ x2 := by
      have hD : s ++ ',' :: (c ++ ' ' :: '@' :: '@' :: (sec ++ rest)) =
          (s ++ ',' :: (c ++ [' ', '@', '@'])) ++ (sec ++ rest) := by simp
      rw [hD] at hsplit
      rcases List.append_eq_append_iff.1 hsplit with ⟨c2, e1, e2⟩ | ⟨a2, e1, e2⟩
      · refine ⟨c2, ?_, e2⟩
        intro x hx
        exact hv1 x (by simp [e1, hx])
      · -- the position would lie inside `s,c @@`, which has no `+`
        cases a2 with
        | nil => exact ⟨[], by simp, by simpa using e2.symm⟩
        | cons f a2 =>
          exfalso
          rw [hx2] at e2
          simp only [List.cons_append, List.cons.injEq] at e2
          have hf : f ∈ s ++ ',' :: (c ++ [' ', '@', '@']) := by
            rw [e1]; simp
          rw [← e2.1] at hf
          simp only [List.mem_append, List.mem_cons, List.mem_singleton] at hf
          rcases hf with hf | hf | hf | hf
          · exact absurd (hs _ hf) (by decide)
          · exact absurd hf (by decide)
          · exact absurd (hc _ hf) (by decide)
          · revert hf; decide
    obtain ⟨c2, hc2, e⟩ := key
    have e2 : (c2 ++ '+' :: (d1 ++ ',' :: (d2 ++ (y ++ ['@', '@'])))) ++ m.rest = sec ++ rest := by
      rw [e, hx2]; simp
    obtain ⟨Z, hZ⟩ := starts_first_line e2 (by
      intro x hx
      simp only [List.mem_append, List.mem_cons, List.mem_singleton] at hx
      rcases hx with hx | rfl | hx | rfl | hx | hx | rfl | hx
      · exact hc2 x hx
      · decide
      · exact digit_dot (hd1 x hx)
      · decide
      · exact digit_dot (hd2 x hx)
      · exact hy x hx
      · decide
      · rcases hx with rfl | hx
        · decide
        · simp at hx) hrest
    apply hsec
    exact ⟨c2 ++ '+' :: (d1 ++ ',' :: (d2 ++ y)), Z, by rw [hZ]; simp⟩

/-- The preferred match of `patchRegex` on a text whose first line is a hunk
header `@@ -a,b +s,c @@` followed by section text without `@@`. -/
theorem run_patchRegex_head (a b s c sec rest : Str)
    (ha : ∀ x ∈ a, digit x = true) (hb : ∀ x ∈ b, digit x = true)
    (hs0 : s ≠ []) (hs : ∀ x ∈ s, digit x = true)
    (hc0 : c ≠ []) (hc : ∀ x ∈ c, digit x = true)
    (hsec : ¬ ['@', '@'] <:+: sec) (hrest : ∀ x t, rest = x :: t → x = '\n') :
    ∃ m, (run patchRegex true ('@' :: '@' :: ' ' :: '-' :: (a ++ ',' :: (b ++ ' ' :: '+' ::
        (s ++ ',' :: (c ++ ' ' :: '@' :: '@' :: (sec ++ rest))))))).head? = some m ∧
      m.caps = [s, c] := by
  have hu : ∀ x ∈ ' ' :: '-' :: (a ++ ',' :: (b ++ [' '])), dot x = true := by
    intro x hx
    simp only [List.mem_append, List.mem_cons, List.mem_singleton] at hx
    rcases hx with rfl | rfl | hx | rfl | hx | hx
    · decide
    · decide
    · exact digit_dot (ha x hx)
    · decide
    · exact digit_dot (hb x hx)
    · rcases hx with rfl | hx
      · decide
      · simp at hx
  obtain ⟨L1, L2, hL, hL1⟩ := repRun_greedy_split dot
    ('+' :: (s ++ ',' :: (c ++ ' ' :: '@' :: '@' :: (sec ++ rest))))
    (' ' :: '-' :: (a ++ ',' :: (b ++ [' ']))) hu
  have hT : ' ' :: '-' :: (a ++ ',' :: (b ++ ' ' :: '+' ::
      (s ++ ',' :: (c ++ ' ' :: '@' :: '@' :: (sec ++ rest))))) =
      (' ' :: '-' :: (a ++ ',' :: (b ++ [' ']))) ++
        ('+' :: (s ++ ',' :: (c ++ ' ' :: '@' :: '@' :: (sec ++ rest)))) := by simp
  rw [patchRegex_eq, run_cat_bol, run_cat_lit_cons, List.head?_map, run_cat_lit_cons,
    List.head?_map, run_cat_rep_eq, hT, hL, flatMap_skip]
  · rw [List.head?_append, List.head?_map, run_patchTail_head s c (sec ++ rest) hs0 hs hc0 hc]
    exact ⟨_, rfl, rfl⟩
  · intro x hx
    obtain ⟨v1, h1, -, h3, h4⟩ := hL1 x hx
    rw [run_patchTail_later s c sec rest v1 x.2 hs hc hsec hrest h1 h4 h3]
    rfl

/-! ## What `getCommitInfo` and `shouldInclude` return -/

theorem mem_run_cat_bol {k : Regex} {b : Bool} {s : Str} {m : Match}
    (h : m ∈ run (.cat .bol k) b s) : b = true ∧ m ∈ run k true s := by
  cases b
  · simp [run] at h
  · rw [run_cat_bol] at h
    exact ⟨rfl, h⟩

/-- What a match of `patchRegex` looks like. -/
theorem mem_run_patchRegex {b : Bool} {s : Str} {m : Match} (h : m ∈ run patchRegex b s) :
    ∃ x d1 d2 y, s = '@' :: '@' :: (x ++ '+' :: (d1 ++ ',' :: (d2 ++ (y ++ '@' :: '@' :: m.rest))))
      ∧ m.caps = [d1, d2] ∧ (∀ c ∈ x, dot c = true) ∧ d1 ≠ [] ∧ (∀ c ∈ d1, digit c = true) ∧
      d2 ≠ [] ∧ (∀ c ∈ d2, digit c = true) ∧ y ≠ [] ∧ (∀ c ∈ y, dot c = true) := by
  rw [patchRegex_eq] at h
  obtain ⟨-, h⟩ := mem_run_cat_bol h
  obtain ⟨t1, m1, rfl, h1, rfl⟩ := mem_run_cat_lit h
  obtain ⟨t2, m2, rfl, h2, rfl⟩ := mem_run_cat_lit h1
  obtain ⟨x, t3, m3, rfl, hx, -, h3, rfl⟩ := mem_run_cat_rep h2
  obtain ⟨d1, d2, y, e, hc, p1, p2, p3, p4, p5, p6⟩ := mem_run_patchTail h3
  exact ⟨x, d1, d2, y, by rw [e], hc, hx, p1, p2, p3, p4, p5, p6⟩

/-- The hunk fields that `getCommitInfo` returns are within 0 and the largest `int`. -/
theorem getCommitInfo_ok_range {file : CommitFile} {info : commitFileInfo}
    (h : getCommitInfo file = .ok info) :
    info.fileName = file.Filename ∧ 0 ≤ info.hunkStart ∧ info.hunkStart ≤ maxInt ∧
      0 ≤ info.hunkEnd ∧ info.hunkEnd ≤ maxInt := by
  rw [getCommitInfo_eq] at h
  cases hp : (run patchRegex true file.GetPatch).head? with
  | none => simp [hp] at h
  | some m =>
    rw [hp] at h
    cases hr : findFrom commitRefRegex true file.GetContentsURL with
    | none => simp [hr] at h
    | some x =>
      simp only [hr, Outcome.ok.injEq] at h
      obtain ⟨_, d1, d2, _, -, hc, -, p1, p2, p3, p4, -, -⟩ :=
        mem_run_patchRegex (List.mem_of_mem_head? hp)
      have r1 := Atoi_digits_range p1 p2
      have r2 := Atoi_digits_range p3 p4
      have e0 : m.caps.getD 0 [] = d1 := by simp [hc]
      have e1 : m.caps.getD 1 [] = d2 := by simp [hc]
      rw [e0, e1] at h
      subst h
      exact ⟨rfl, r1.1, r1.2, r2.1, r2.2⟩

/-- With hunk fields as `getCommitInfo` returns them, the sum in `shouldInclude`
cannot wrap around on an included finding. -/
theorem shouldInclude_bounds {r : result} {info : commitFileInfo}
    (h : shouldInclude r info = true) (h1 : 0 ≤ info.hunkStart) (h2 : info.hunkStart ≤ maxInt)
    (h3 : 0 ≤ info.hunkEnd) (h4 : info.hunkEnd ≤ maxInt) :
    info.hunkStart < r.Range.StartLine ∧ r.Range.StartLine < info.hunkStart + info.hunkEnd ∧
      r.Range.StartLine ≤ maxInt := by
  simp only [shouldInclude, Bool.and_eq_true, decide_eq_true_eq] at h
  obtain ⟨ha, hb⟩ := h
  unfold wrapInt at ha
  unfold maxInt at *
  omega

theorem shouldInclude_stripWorkspace (ws : Str) (r : result) (info : commitFileInfo) :
    shouldInclude (stripWorkspace ws r) info = shouldInclude r info := rfl

/-! ## Where the annotations come from -/

theorem filesLoop_ok (ws : Str) :
    ∀ (files : List CommitFile) (r : result) (acc out : List commentBlock),
      filesLoop ws files r acc = .ok out →
      ∃ new, out = acc ++ new ∧ ∀ b ∈ new, Origin ws files r b := by
  intro files
  induction files with
  | nil =>
    intro r acc out h
    simp only [filesLoop, Outcome.ok.injEq] at h
    exact ⟨[], by simp [h], by simp⟩
  | cons f files ih =>
    intro r acc out h
    have lift : ∀ b, Origin ws files (stripWorkspace ws r) b → Origin ws (f :: files) r b := by
      rintro b ⟨f2, hf2, info, k, hk, hpath, hinfo, hinc, hb⟩
      refine ⟨f2, by simp [hf2], info, k + 1, Nat.succ_pos k, ?_, hinfo, hinc, hb⟩
      rw [Function.iterate_succ_apply]
      exact hpath
    simp only [filesLoop] at h
    split at h
    · rename_i hname
      split at h
      · simp at h
      · rename_i info hinfo
        split at h
        · rename_i hinc
          obtain ⟨new, rfl, hnew⟩ := ih _ _ _ h
          refine ⟨{ fileName := info.fileName
                    startLine := r.Range.StartLine
                    endLine := r.Range.EndLine
                    position := wrapInt (r.Range.StartLine - info.hunkStart)
                    sha := info.sha
                    code := r.RuleID
                    description := r.Description
                    provider := r.RuleProvider } :: new, ?_, ?_⟩
          · simp [stripWorkspace]
          intro b hb
          rcases List.mem_cons.1 hb with rfl | hb
          · exact ⟨f, by simp, info, 1, Nat.one_pos, hname, hinfo, hinc, rfl⟩
          · exact lift b (hnew b hb)
        · obtain ⟨new, rfl, hnew⟩ := ih _ _ _ h
          exact ⟨new, rfl, fun b hb => lift b (hnew b hb)⟩
    · obtain ⟨new, rfl, hnew⟩ := ih _ _ _ h
      exact ⟨new, rfl, fun b hb => lift b (hnew b hb)⟩

theorem resultsLoop_ok (ws : Str) (files : List CommitFile) :
    ∀ (results : List result) (acc out : List commentBlock),
      resultsLoop ws files results acc = .ok out →
      ∃ new, out = acc ++ new ∧ ∀ b ∈ new, ∃ r ∈ results, Origin ws files r b := by
  intro results
  induction results with
  | nil =>
    intro acc out h
    simp only [resultsLoop, Outcome.ok.injEq] at h
    exact ⟨[], by simp [h], by simp⟩
  | cons r results ih =>
    intro acc out h
    simp only [resultsLoop] at h
    split at h
    · simp at h
    · rename_i acc2 h2
      obtain ⟨new1, rfl, hnew1⟩ := filesLoop_ok ws files r acc acc2 h2
      obtain ⟨new2, rfl, hnew2⟩ := ih _ _ h
      refine ⟨new1 ++ new2, by simp, ?_⟩
      intro b hb
      rcases List.mem_append.1 hb with hb | hb
      · exact ⟨r, by simp, hnew1 b hb⟩
      · obtain ⟨r2, hr2, ho⟩ := hnew2 b hb
        exact ⟨r2, by simp [hr2], ho⟩

theorem getRelevantResults_origin {root : Str} {results : List result} {files : List CommitFile}
    {blocks : List commentBlock}
    (h : getRelevantResults root (.ok results) files = .ok blocks) :
    ∀ b ∈ blocks, ∃ r ∈ results, Origin (root ++ ['/']) files r b := by
  simp only [getRelevantResults] at h
  obtain ⟨new, rfl, hnew⟩ := resultsLoop_ok _ files results [] blocks h
  simpa using hnew

/-! ## Values of digit strings -/

theorem decimalValue_cons (c : Char) (t : Str) :
    decimalValue (c :: t) = (c.toNat - 48) * 10 ^ t.length + decimalValue t := by
  simp [decimalValue, Nat.ofDigits_append, Nat.ofDigits_singleton]
  ring

theorem foldl_digits (s : Str) :
    ∀ acc : Nat, s.foldl (fun n c => n * 10 + (c.toNat - 48)) acc =
      acc * 10 ^ s.length + decimalValue s := by
  induction s with
  | nil => intro acc; simp [decimalValue]
  | cons c t ih =>
    intro acc
    rw [List.foldl_cons, ih, decimalValue_cons, List.length_cons]
    ring

theorem digitsValue_eq {d : Str} (h : IsNumber d) : digitsValue d = some (decimalValue d) := by
  obtain ⟨h0, hd⟩ := h
  cases d with
  | nil => exact absurd rfl h0
  | cons c t =>
    have hall : (c :: t).all digit = true := List.all_eq_true.2 hd
    simp only [digitsValue, hall, if_true, foldl_digits]
    simp

/-- On a digit string whose value fits an `int`, `Atoi` gives that value. -/
theorem Atoi_digits_value {d : Str} (h : IsNumber d) (hfit : (decimalValue d : Int) ≤ maxInt) :
    (Atoi d).1 = decimalValue d := by
  have hv := digitsValue_eq h
  obtain ⟨h0, hd⟩ := h
  cases d with
  | nil => exact absurd rfl h0
  | cons c t =>
    obtain ⟨n1, n2⟩ := digit_ne_sign (hd c (by simp))
    unfold Atoi
    split
    · simp_all
    · simp_all
    · simp_all
    · simp only [hv, hfit, if_true]

theorem FindAll_ne_nil {re : Regex} {s : Str} (h : FindAllStringSubmatch re s ≠ []) :
    ∃ x, findFrom re true s = some x := by
  cases hf : findFrom re true s with
  | none => exact absurd (FindAll_of_none hf) h
  | some x => exact ⟨x, rfl⟩

theorem FindAll_patch_ne_nil {s : Str} (h : FindAllStringSubmatch patchRegex s ≠ []) :
    ∃ m, (run patchRegex true s).head? = some m := by
  obtain ⟨x, hx⟩ := FindAll_ne_nil h
  rw [findFrom_patchRegex] at hx
  cases hm : (run patchRegex true s).head? with
  | none => simp [hm] at hx
  | some m => exact ⟨m, rfl⟩

theorem toList_ref : "ref=".toList = ['r', 'e', 'f', '='] := rfl

/-! ## Later lines -/

theorem repRun_append_line (p : Char → Bool) (g : Bool) (hp : p '\n' = false) (t : Str) :
    ∀ (s : Str) (n : Nat), repRun p g n (s ++ '\n' :: t) =
      (repRun p g n s).map fun x => (x.1, x.2 ++ '\n' :: t) := by
  intro s
  induction s with
  | nil =>
    intro n
    cases n <;> cases g <;> simp [repRun, hp]
  | cons c s ih =>
    intro n
    cases n <;> cases g <;> by_cases hc : p c = true <;>
      simp [repRun, hc, ih, List.map_map, Function.comp_def]

/-- A pattern whose classes reject the line feed matches a text in the same
ways when further lines are appended to it. -/
theorem run_append_line (t : Str) : ∀ (re : Regex), re.noLF = true → ∀ (b : Bool) (s : Str),
    run re b (s ++ '\n' :: t) =
      (run re b s).map fun m => ⟨m.consumed, m.caps, m.rest ++ '\n' :: t⟩ := by
  intro re
  induction re with
  | bol =>
    intro _ b s
    cases b <;> simp [run]
  | cls p =>
    intro h b s
    have hp : p '\n' = false := by simpa [Regex.noLF] using h
    cases s with
    | nil => simp [run, hp]
    | cons c s => by_cases hc : p c = true <;> simp [run, hc]
  | rep p n g =>
    intro h b s
    have hp : p '\n' = false := by simpa [Regex.noLF] using h
    simp [run, repRun_append_line p g hp t, List.map_map, Function.comp_def]
  | cat a k iha ihk =>
    intro h b s
    simp only [Regex.noLF, Bool.and_eq_true] at h
    simp only [run, iha h.1, ihk h.2, List.flatMap_map, List.map_flatMap, List.map_map,
      Function.comp_def]
  | grp r ih =>
    intro h b s
    simp only [Regex.noLF] at h
    simp only [run, ih h, List.map_map, Function.comp_def]

theorem patchRegex_noLF : patchRegex.noLF = true := by decide

/-- The path comparison and the inclusion test for a single finding and a
single changed file. -/
theorem getRelevantResults_single_excluded (root : Str) (r : result) (file : CommitFile)
    (info : commitFileInfo) (h : getCommitInfo file = .ok info)
    (hex : shouldInclude r info = false) :
    getRelevantResults root (.ok [r]) [file] = .ok [] := by
  have hf : filesLoop (root ++ ['/']) [file] r [] = .ok [] := by
    simp only [filesLoop, h, shouldInclude_stripWorkspace, hex]
    split <;> simp
  simp [getRelevantResults, resultsLoop, hf]

theorem not_mem_of_dot {x : Str} (h : ∀ c ∈ x, dot c = true) : '\n' ∉ x := by
  intro hx
  exact absurd (h _ hx) (by decide)

theorem dot_of_not_mem {x : Str} (h : '\n' ∉ x) : ∀ c ∈ x, dot c = true := by
  intro c hc
  have : c ≠ '\n' := by rintro rfl; exact h hc
  simp [dot, this]

/-- A text that contains a hunk header with both counts has two commas. -/
theorem ContainsHunkHeader.two_commas {patch : Str} (h : ContainsHunkHeader patch) :
    2 ≤ patch.count ',' := by
  obtain ⟨hd, ⟨a, b, s, c, -, -, -, -, rfl⟩, hinf⟩ := h
  have h1 := hinf.sublist.count_le ','
  have h2 : 2 ≤ List.count ',' ("@@ -".toList ++ a ++ ",".toList ++ b ++ " +".toList ++ s ++
      ",".toList ++ c ++ " @@".toList) := by
    simp only [List.count_append, show ",".toList = [','] from rfl, List.count_singleton_self]
    omega
  omega

theorem findFrom_of_head {re : Regex} {s : Str} {m : Match} (b : Bool)
    (h : (run re b s).head? = some m) : findFrom re b s = some (0, m) := by
  cases s with
  | nil => simp [findFrom, h]
  | cons c t => simp [findFrom, h]

/-- A leftmost match is a match at some position of the text. -/
theorem findFrom_some (re : Regex) : ∀ (s : Str) (b : Bool) (x : Nat × Match),
    findFrom re b s = some x → ∃ t1 t2 b2, s = t1 ++ t2 ∧ x.2 ∈ run re b2 t2 := by
  intro s
  induction s with
  | nil =>
    intro b x h
    simp only [findFrom, Option.map_eq_some'] at h
    obtain ⟨m, hm, rfl⟩ := h
    exact ⟨[], [], b, rfl, List.mem_of_mem_head? hm⟩
  | cons c t ih =>
    intro b x h
    simp only [findFrom] at h
    split at h
    · rename_i m hm
      simp only [Option.some.injEq] at h
      subst h
      exact ⟨[], c :: t, b, rfl, List.mem_of_mem_head? hm⟩
    · simp only [Option.map_eq_some'] at h
      obtain ⟨y, hy, rfl⟩ := h
      obtain ⟨t1, t2, b2, e, hm⟩ := ih false y hy
      exact ⟨c :: t1, t2, b2, by simp [e], hm⟩

/-! ## Findings that match no file, files that fail -/

theorem filesLoop_no_match (ws q : Str) (hq : ReplaceAll q ws [] = q) :
    ∀ (files : List CommitFile) (r : result) (acc : List commentBlock),
      ReplaceAll r.Range.Filename ws [] = q → (∀ f ∈ files, q ≠ f.Filename) →
      filesLoop ws files r acc = .ok acc := by
  intro files
  induction files with
  | nil => intro r acc _ _; rfl
  | cons g files ih =>
    intro r acc hr hno
    have hg : (stripWorkspace ws r).Range.Filename ≠ g.Filename := by
      show ReplaceAll r.Range.Filename ws [] ≠ g.Filename
      rw [hr]; exact hno g (by simp)
    simp only [filesLoop, hg, if_false]
    exact ih (stripWorkspace ws r) acc (by show ReplaceAll (ReplaceAll _ ws []) ws [] = q; rw [hr, hq])
      (fun f hf => hno f (by simp [hf]))

theorem filesLoop_err (ws : Str) :
    ∀ (files : List CommitFile) (r : result) (acc : List commentBlock) (e : String),
      filesLoop ws files r acc = .err e →
      ∃ f ∈ files, ∃ k, 0 < k ∧
        (fun p => ReplaceAll p ws [])^[k] r.Range.Filename = f.Filename ∧
        getCommitInfo f = .err e := by
  intro files
  induction files with
  | nil => intro r acc e h; simp [filesLoop] at h
  | cons g files ih =>
    intro r acc e h
    have lift : (∃ f ∈ files, ∃ k, 0 < k ∧
          (fun p => ReplaceAll p ws [])^[k] (stripWorkspace ws r).Range.Filename = f.Filename ∧
          getCommitInfo f = .err e) →
        ∃ f ∈ g :: files, ∃ k, 0 < k ∧
          (fun p => ReplaceAll p ws [])^[k] r.Range.Filename = f.Filename ∧
          getCommitInfo f = .err e := by
      rintro ⟨f, hf, k, -, hk, he⟩
      refine ⟨f, by simp [hf], k + 1, Nat.succ_pos k, ?_, he⟩
      rw [Function.iterate_succ_apply]
      exact hk
    simp only [filesLoop] at h
    split at h
    · rename_i hname
      split at h
      · rename_i e2 he2
        simp only [Outcome.err.injEq] at h
        subst h
        exact ⟨g, by simp, 1, Nat.one_pos, hname, he2⟩
      · split at h
        · exact lift (ih _ _ _ h)
        · exact lift (ih _ _ _ h)
    · exact lift (ih _ _ _ h)

theorem filesLoop_match_fail (ws q : Str) (hq : ReplaceAll q ws [] = q) (f : CommitFile)
    (e : String) (hfq : q = f.Filename) (hfail : getCommitInfo f = .err e) :
    ∀ (files : List CommitFile) (r : result) (acc : List commentBlock),
      ReplaceAll r.Range.Filename ws [] = q → f ∈ files →
      ∃ e2, filesLoop ws files r acc = .err e2 := by
  intro files
  induction files with
  | nil => intro r acc _ hf; simp at hf
  | cons g files ih =>
    intro r acc hr hf
    have hr2 : ReplaceAll (stripWorkspace ws r).Range.Filename ws [] = q := by
      show ReplaceAll (ReplaceAll _ ws []) ws [] = q
      rw [hr, hq]
    have hpath : (stripWorkspace ws r).Range.Filename = q := hr
    simp only [filesLoop, hpath]
    by_cases hg : q = g.Filename
    · simp only [hg, if_true]
      cases hgi : getCommitInfo g with
      | err e2 => exact ⟨e2, rfl⟩
      | ok info =>
        have hne : f ≠ g := by
          rintro rfl
          rw [hfail] at hgi
          cases hgi
        have hf2 : f ∈ files := by
          rcases List.mem_cons.1 hf with h | h
          · exact absurd h hne
          · exact h
        simp only []
        split
        · exact ih _ _ hr2 hf2
        · exact ih _ _ hr2 hf2
    · have hne : f ≠ g := by
        rintro rfl
        exact hg hfq
      have hf2 : f ∈ files := by
        rcases List.mem_cons.1 hf with h | h
        · exact absurd h hne
        · exact h
      simp only [hg, if_false]
      exact ih _ _ hr2 hf2

theorem resultsLoop_append (ws : Str) (files : List CommitFile) :
    ∀ (A B : List result) (acc : List commentBlock),
      resultsLoop ws files (A ++ B) acc =
        match resultsLoop ws files A acc with
        | .err e => .err e
        | .ok acc2 => resultsLoop ws files B acc2 := by
  intro A
  induction A with
  | nil => intro B acc; rfl
  | cons r A ih =>
    intro B acc
    simp only [List.cons_append, resultsLoop]
    cases filesLoop ws files r acc with
    | err e => rfl
    | ok acc2 => exact ih B acc2

theorem resultsLoop_aborts (ws : Str) (files : List CommitFile) (r : result)
    (hr : ∀ acc, ∃ e, filesLoop ws files r acc = .err e) :
    ∀ (results : List result) (acc : List commentBlock), r ∈ results →
      ∃ r2 ∈ results, ∃ f ∈ files, ∃ k e, 0 < k ∧
        (fun p => ReplaceAll p ws [])^[k] r2.Range.Filename = f.Filename ∧
        getCommitInfo f = .err e ∧ resultsLoop ws files results acc = .err e := by
  intro results
  induction results with
  | nil => intro acc h; simp at h
  | cons r0 results ih =>
    intro acc h
    simp only [resultsLoop]
    cases h0 : filesLoop ws files r0 acc with
    | err e =>
      obtain ⟨f, hf, k, hk, hpath, he⟩ := filesLoop_err ws files r0 acc e h0
      exact ⟨r0, by simp, f, hf, k, e, hk, hpath, he, rfl⟩
    | ok acc2 =>
      rcases List.mem_cons.1 h with rfl | h
      · obtain ⟨e, he⟩ := hr acc
        rw [he] at h0
        cases h0
      · obtain ⟨r2, hr2, rest⟩ := ih acc2 h
        exact ⟨r2, by simp [hr2], rest⟩

/-! ## Completeness of the matcher on the patch pattern -/

/-- Every split into a long enough run of the class and a rest is among the
ways of repeating the class. -/
theorem repRun_complete (p : Char → Bool) (g : Bool) (v : Str) :
    ∀ (u : Str) (n : Nat), (∀ c ∈ u, p c = true) → n ≤ u.length →
      (u, v) ∈ repRun p g n (u ++ v) := by
  intro u
  induction u with
  | nil =>
    intro n _ hn
    have : n = 0 := by simpa using hn
    subst this
    cases v with
    | nil => simp [repRun]
    | cons c t => cases g <;> simp [repRun]
  | cons c u ih =>
    intro n hu hn
    have hc : p c = true := hu c (by simp)
    have hu2 : ∀ d ∈ u, p d = true := fun d hd => hu d (by simp [hd])
    cases n with
    | zero =>
      have := ih 0 hu2 (Nat.zero_le _)
      have hm : (c :: u, v) ∈ (repRun p g 0 (u ++ v)).map (fun x => (c :: x.1, x.2)) :=
        List.mem_map.2 ⟨(u, v), this, rfl⟩
      cases g <;> simp only [List.cons_append, repRun, hc, if_true] <;> simp [hm]
    | succ n =>
      have := ih n hu2 (by simpa using hn)
      rw [List.cons_append, repRun_succ_cons p g n c _ hc]
      exact List.mem_map.2 ⟨(u, v), this, rfl⟩

theorem mem_run_cat_lit_of {c : Char} {k : Regex} {t : Str} {m2 : Match} (b : Bool)
    (h : m2 ∈ run k false t) :
    (⟨c :: m2.consumed, m2.caps, m2.rest⟩ : Match) ∈ run (.cat (lit c) k) b (c :: t) := by
  rw [run_cat_lit_cons]
  exact List.mem_map.2 ⟨m2, h, rfl⟩

theorem mem_run_cat_rep_of {p : Char → Bool} {n : Nat} {g : Bool} {k : Regex} {u v : Str}
    {m2 : Match} (b : Bool) (hu : ∀ c ∈ u, p c = true) (hn : n ≤ u.length)
    (h : m2 ∈ run k (b && u.isEmpty) v) :
    (⟨u ++ m2.consumed, m2.caps, m2.rest⟩ : Match) ∈ run (.cat (.rep p n g) k) b (u ++ v) := by
  rw [run_cat_rep_eq]
  exact List.mem_flatMap.2 ⟨(u, v), repRun_complete p g v u n hu hn, List.mem_map.2 ⟨m2, h, rfl⟩⟩

theorem mem_run_cat_grp_rep_of {p : Char → Bool} {n : Nat} {g : Bool} {k : Regex} {u v : Str}
    {m2 : Match} (b : Bool) (hu : ∀ c ∈ u, p c = true) (hn : n ≤ u.length)
    (h : m2 ∈ run k (b && u.isEmpty) v) :
    (⟨u ++ m2.consumed, u :: m2.caps, m2.rest⟩ : Match) ∈
      run (.cat (.grp (.rep p n g)) k) b (u ++ v) := by
  rw [run_cat_grp_rep_eq]
  exact List.mem_flatMap.2 ⟨(u, v), repRun_complete p g v u n hu hn, List.mem_map.2 ⟨m2, h, rfl⟩⟩

/-- Every text of the shape `@@…+s,c…@@…` on its first line has a match of
`patchRegex`. -/
theorem run_patchRegex_complete (x s c y z : Str) (hx : ∀ d ∈ x, dot d = true)
    (hs : IsNumber s) (hc : IsNumber c) (hy0 : y ≠ []) (hy : ∀ d ∈ y, dot d = true) :
    run patchRegex true
      ('@' :: '@' :: (x ++ '+' :: (s ++ ',' :: (c ++ (y ++ '@' :: '@' :: z))))) ≠ [] := by
  have h1 : (⟨['@'], [], z⟩ : Match) ∈ run (lit '@') false ('@' :: z) := by
    rw [run_lit_cons]; simp
  have h2 := mem_run_cat_lit_of (c := '@') false h1
  have h3 := mem_run_cat_rep_of (p := dot) (n := 1) (g := false) (u := y) false hy
    (List.length_pos.2 hy0) (by simpa using h2)
  have h4 := mem_run_cat_grp_rep_of (p := digit) (n := 1) (g := true) (u := c) false hc.2
    (List.length_pos.2 hc.1) (by simpa using h3)
  have h5 := mem_run_cat_lit_of (c := ',') false h4
  have h6 := mem_run_cat_grp_rep_of (p := digit) (n := 1) (g := true) (u := s) false hs.2
    (List.length_pos.2 hs.1) (by simpa using h5)
  have h7 := mem_run_cat_lit_of (c := '+') false h6
  have h8 := mem_run_cat_rep_of (p := dot) (n := 0) (g := true) (u := x) false hx
    (Nat.zero_le _) (by simpa using h7)
  have h9 := mem_run_cat_lit_of (c := '@') false h8
  have h10 := mem_run_cat_lit_of (c := '@') true h9
  rw [patchRegex_eq, run_cat_bol]
  exact List.ne_nil_of_mem h10

/-- `getCommitInfo` returns the patch error exactly on the patches that do not
start with a loose header. -/
theorem getCommitInfo_patch_error_iff (file : CommitFile) :
    getCommitInfo file = .err "the patch details could not be resolved" ↔
      ¬ StartsWithLooseHeader file.GetPatch := by
  constructor
  · rintro h ⟨x, s, c, y, z, hs, hc, hy0, hx, hy, e⟩
    have hne := run_patchRegex_complete x s c y z (dot_of_not_mem hx) hs hc hy0
      (dot_of_not_mem hy)
    have e2 : file.GetPatch =
        '@' :: '@' :: (x ++ '+' :: (s ++ ',' :: (c ++ (y ++ '@' :: '@' :: z)))) := by
      rw [e]
      simp [show "@@".toList = ['@', '@'] from rfl, show "+".toList = ['+'] from rfl,
        show ",".toList = [','] from rfl]
    rw [← e2] at hne
    rw [getCommitInfo_eq] at h
    cases hp : (run patchRegex true file.GetPatch).head? with
    | none => exact hne (List.head?_eq_none_iff.1 hp)
    | some m =>
      rw [hp] at h
      cases hr : findFrom commitRefRegex true file.GetContentsURL with
      | none =>
        rw [hr] at h
        simp only [Outcome.err.injEq] at h
        exact absurd h (by decide)
      | some r =>
        rw [hr] at h
        cases h
  · intro h
    rw [getCommitInfo_eq]
    cases hp : (run patchRegex true file.GetPatch).head? with
    | none => rfl
    | some m =>
      exfalso
      apply h
      obtain ⟨x, d1, d2, y, e, -, hx, p1, p2, p3, p4, p5, p6⟩ :=
        mem_run_patchRegex (List.mem_of_mem_head? hp)
      refine ⟨x, d1, d2, y, m.rest, ⟨p1, p2⟩, ⟨p3, p4⟩, p5, not_mem_of_dot hx,
        not_mem_of_dot p6, ?_⟩
      rw [e]
      simp [show "@@".toList = ['@', '@'] from rfl, show "+".toList = ['+'] from rfl,
        show ",".toList = [','] from rfl]

/-! ## `ReplaceAll` -/

theorem replaceLoop_skip (old new : Str) (p : Str) :
    ∀ u : Str, replaceLoop old new u.length (u ++ p) = replaceLoop old new 0 p := by
  intro u
  induction u with
  | nil => rfl
  | cons c u ih =>
    simp only [List.length_cons, List.cons_append, replaceLoop]
    exact ih

theorem replaceLoop_zero_cons (old new : Str) (c : Char) (t : Str) :
    replaceLoop old new 0 (c :: t) =
      if old.isPrefixOf (c :: t) then new ++ replaceLoop old new (old.length - 1) t
      else c :: replaceLoop old new 0 t := by
  simp only [replaceLoop]

/-- A text without occurrence of `old` is left as it is. -/
theorem replaceLoop_of_no_occurrence (old new : Str) :
    ∀ s : Str, ¬ old <:+: s → replaceLoop old new 0 s = s := by
  intro s
  induction s with
  | nil => intro _; rfl
  | cons c t ih =>
    intro h
    have h1 : old.isPrefixOf (c :: t) = false := by
      cases hp : old.isPrefixOf (c :: t) with
      | false => rfl
      | true => exact absurd (List.isPrefixOf_iff_prefix.1 hp).isInfix h
    have h2 : ¬ old <:+: t := fun hi => h (hi.trans (List.suffix_cons c t).isInfix)
    rw [replaceLoop_zero_cons, h1, ih h2]
    rfl

theorem ReplaceAll_of_no_occurrence {old : Str} (s : Str) (h0 : old ≠ []) (h : ¬ old <:+: s) :
    ReplaceAll s old [] = s := by
  simp only [ReplaceAll, h0, if_false]
  exact replaceLoop_of_no_occurrence old [] s h

/-- A leading occurrence of `old` is removed, and the replacement goes on after it. -/
theorem ReplaceAll_append_self {old : Str} (p : Str) (h0 : old ≠ []) :
    ReplaceAll (old ++ p) old [] = ReplaceAll p old [] := by
  cases old with
  | nil => exact absurd rfl h0
  | cons c o =>
    have hp : (c :: o).isPrefixOf (c :: (o ++ p)) = true :=
      List.isPrefixOf_iff_prefix.2 ⟨p, rfl⟩
    simp only [ReplaceAll, h0, if_false]
    rw [List.cons_append, replaceLoop_zero_cons, hp]
    simp only [if_true, List.nil_append, List.length_cons, Nat.add_sub_cancel]
    exact replaceLoop_skip (c :: o) [] p o

theorem stripWorkspace_iterate (ws : Str) (r : result) :
    ∀ k : Nat, ((stripWorkspace ws)^[k] r).Range.Filename =
      (fun p => ReplaceAll p ws [])^[k] r.Range.Filename := by
  intro k
  induction k generalizing r with
  | zero => rfl
  | succ k ih =>
    rw [Function.iterate_succ_apply, Function.iterate_succ_apply, ih]
    rfl

/-- Once a round of normalization changes nothing, no later round does. -/
theorem iterate_of_stable (ws p : Str) (h : ReplaceAll (ReplaceAll p ws []) ws [] = ReplaceAll p ws []) :
    ∀ k : Nat, 0 < k → (fun q => ReplaceAll q ws [])^[k] p = ReplaceAll p ws [] := by
  intro k
  induction k with
  | zero => intro h0; omega
  | succ k ih =>
    intro _
    rcases Nat.eq_zero_or_pos k with rfl | hk
    · rfl
    · rw [Function.iterate_succ_apply']
      simp only [ih hk, h]

/-! ## The loops as lists -/

theorem stripWorkspace_iterate_eq (ws : Str) (r : result) (k : Nat) :
    (stripWorkspace ws)^[k] r =
      { r with Range := { r.Range with
          Filename := (fun p => ReplaceAll p ws [])^[k] r.Range.Filename } } := by
  induction k generalizing r with
  | zero => rfl
  | succ k ih =>
    rw [Function.iterate_succ_apply, Function.iterate_succ_apply, ih]
    rfl

/-- The accumulated slice only grows: a run of the inner loop from any slice is
the run from the empty slice, appended. -/
theorem filesLoop_acc (ws : Str) :
    ∀ (files : List CommitFile) (r : result) (acc : List commentBlock),
      filesLoop ws files r acc =
        match filesLoop ws files r [] with
        | .ok new => .ok (acc ++ new)
        | .err e => .err e := by
  intro files
  induction files with
  | nil => intro r acc; simp [filesLoop]
  | cons f files ih =>
    intro r acc
    simp only [filesLoop]
    split
    · split
      · rfl
      · split
        · rw [ih _ (acc ++ _), ih _ ([] ++ _)]
          cases filesLoop ws files (stripWorkspace ws r) [] <;> simp
        · exact ih _ acc
    · exact ih _ acc

theorem resultsLoop_acc (ws : Str) (files : List CommitFile) :
    ∀ (results : List result) (acc : List commentBlock),
      resultsLoop ws files results acc =
        match resultsLoop ws files results [] with
        | .ok new => .ok (acc ++ new)
        | .err e => .err e := by
  intro results
  induction results with
  | nil => intro acc; simp [resultsLoop]
  | cons r results ih =>
    intro acc
    simp only [resultsLoop]
    rw [filesLoop_acc ws files r acc]
    cases h : filesLoop ws files r [] with
    | err e => rfl
    | ok new =>
      simp only
      rw [ih (acc ++ new), ih new]
      cases resultsLoop ws files results [] <;> simp

/-- A successful run of the inner loop appends, in file order, the annotations of
the pairs that match and are included. -/
theorem filesLoop_eq_filterMap (ws : Str) (r : result) :
    ∀ (files : List CommitFile) (n : Nat) (acc out : List commentBlock),
      filesLoop ws files ((stripWorkspace ws)^[n] r) acc = .ok out →
      out = acc ++ (files.enumFrom n).filterMap (annotationOfPair ws r) := by
  intro files
  induction files with
  | nil =>
    intro n acc out h
    simp only [filesLoop, Outcome.ok.injEq] at h
    simp [h]
  | cons f files ih =>
    intro n acc out h
    have hs : stripWorkspace ws ((stripWorkspace ws)^[n] r) = (stripWorkspace ws)^[n + 1] r :=
      (Function.iterate_succ_apply' _ _ _).symm
    have hname : ((stripWorkspace ws)^[n + 1] r).Range.Filename =
        (fun p => ReplaceAll p ws [])^[n + 1] r.Range.Filename := stripWorkspace_iterate ws r _
    have hrest : ∀ i, shouldInclude ((stripWorkspace ws)^[n + 1] r) i = shouldInclude r i := by
      intro i; rw [stripWorkspace_iterate_eq]; rfl
    simp only [filesLoop, hs, hname, hrest] at h
    simp only [List.enumFrom_cons, List.filterMap_cons, annotationOfPair]
    split at h
    · rename_i hmatch
      simp only [hmatch, if_true]
      split at h
      · simp at h
      · rename_i info hinfo
        simp only [hinfo]
        split at h
        · rename_i hinc
          have := ih (n + 1) _ out h
          simp only [hinc, if_true, this, List.append_assoc, List.singleton_append]
          rw [stripWorkspace_iterate_eq]
          rfl
        · rename_i hinc
          have := ih (n + 1) _ out h
          simp only [hinc, this]
          rfl
    · rename_i hmatch
      have := ih (n + 1) _ out h
      simp only [hmatch, if_false, this]

theorem resultsLoop_eq_flatMap (ws : Str) (files : List CommitFile) :
    ∀ (results : List result) (acc out : List commentBlock),
      resultsLoop ws files results acc = .ok out →
      out = acc ++ results.flatMap fun r => files.enum.filterMap (annotationOfPair ws r) := by
  intro results
  induction results with
  | nil =>
    intro acc out h
    simp only [resultsLoop, Outcome.ok.injEq] at h
    simp [h]
  | cons r results ih =>
    intro acc out h
    simp only [resultsLoop] at h
    split at h
    · simp at h
    · rename_i acc2 h2
      have e1 := filesLoop_eq_filterMap ws r files 0 acc acc2 h2
      have e2 := ih acc2 out h
      rw [e2, e1, List.flatMap_cons, List.append_assoc]
      rfl

/-- When the whole run succeeds, so does the inner loop on every finding alone. -/
theorem resultsLoop_ok_mem (ws : Str) (files : List CommitFile) :
    ∀ (results : List result) (acc out : List commentBlock),
      resultsLoop ws files results acc = .ok out →
      ∀ r ∈ results, ∃ p, filesLoop ws files r [] = .ok p := by
  intro results
  induction results with
  | nil => intro acc out _ r hr; simp at hr
  | cons r0 results ih =>
    intro acc out h r hr
    simp only [resultsLoop] at h
    split at h
    · simp at h
    · rename_i acc2 h2
      rcases List.mem_cons.1 hr with rfl | hr
      · rw [filesLoop_acc] at h2
        cases h3 : filesLoop ws files r [] with
        | err e => simp [h3] at h2
        | ok p => exact ⟨p, rfl⟩
      · exact ih acc2 out h r hr

theorem resultsLoop_length (ws : Str) (files : List CommitFile) :
    ∀ (results : List result) (acc out : List commentBlock),
      (∀ r ∈ results, ∀ p, filesLoop ws files r [] = .ok p → p.length ≤ 1) →
      resultsLoop ws files results acc = .ok out →
      out.length ≤ acc.length + results.length := by
  intro results
  induction results with
  | nil =>
    intro acc out _ h
    simp only [resultsLoop, Outcome.ok.injEq] at h
    simp [h]
  | cons r results ih =>
    intro acc out hone h
    simp only [resultsLoop] at h
    rw [filesLoop_acc] at h
    cases h3 : filesLoop ws files r [] with
    | err e => simp [h3] at h
    | ok p =>
      simp only [h3] at h
      have h1 := hone r (by simp) p h3
      have h2 := ih (acc ++ p) out (fun r2 hr2 => hone r2 (by simp [hr2])) h
      simp only [List.length_append, List.length_cons] at h2 ⊢
      omega

/-- With a normalized path that stays the same and changed files of pairwise
distinct paths, the inner loop adds at most one annotation. -/
theorem filesLoop_at_most_one (ws q : Str) (hq : ReplaceAll q ws [] = q) :
    ∀ (files : List CommitFile) (r : result) (acc out : List commentBlock),
      ReplaceAll r.Range.Filename ws [] = q → (files.map fun f => f.Filename).Nodup →
      filesLoop ws files r acc = .ok out → ∃ new, out = acc ++ new ∧ new.length ≤ 1 := by
  intro files
  induction files with
  | nil =>
    intro r acc out _ _ h
    simp only [filesLoop, Outcome.ok.injEq] at h
    exact ⟨[], by simp [h], by simp⟩
  | cons g files ih =>
    intro r acc out hr hnd h
    have hr2 : ReplaceAll (stripWorkspace ws r).Range.Filename ws [] = q := by
      show ReplaceAll (ReplaceAll _ ws []) ws [] = q
      rw [hr, hq]
    have hpath : (stripWorkspace ws r).Range.Filename = q := hr
    simp only [List.map_cons, List.nodup_cons] at hnd
    simp only [filesLoop, hpath] at h
    split at h
    · rename_i hg
      have hno : ∀ f ∈ files, q ≠ f.Filename := by
        intro f hf e
        exact hnd.1 (List.mem_map.2 ⟨f, hf, by rw [← e, hg]⟩)
      split at h
      · simp at h
      · split at h
        · rw [filesLoop_no_match ws q hq files _ _ hr2 hno] at h
          simp only [Outcome.ok.injEq] at h
          exact ⟨_, h.symm, by simp⟩
        · rw [filesLoop_no_match ws q hq files _ _ hr2 hno] at h
          simp only [Outcome.ok.injEq] at h
          exact ⟨[], by simp [h], by simp⟩
    · exact ih _ acc out hr2 hnd.2 h

theorem resultsLoop_err (ws : Str) (files : List CommitFile) :
    ∀ (results : List result) (acc : List commentBlock) (e : String),
      resultsLoop ws files results acc = .err e →
      ∃ r ∈ results, ∃ f ∈ files, ∃ k, 0 < k ∧
        (fun p => ReplaceAll p ws [])^[k] r.Range.Filename = f.Filename ∧
        getCommitInfo f = .err e := by
  intro results
  induction results with
  | nil => intro acc e h; simp [resultsLoop] at h
  | cons r results ih =>
    intro acc e h
    simp only [resultsLoop] at h
    split at h
    · rename_i e2 h2
      simp only [Outcome.err.injEq] at h
      subst h
      obtain ⟨f, hf, k, hk, hp, he⟩ := filesLoop_err ws files r acc e2 h2
      exact ⟨r, by simp, f, hf, k, hk, hp, he⟩
    · obtain ⟨r2, hr2, rest⟩ := ih _ e h
      exact ⟨r2, by simp [hr2], rest⟩

/-- The inner loop fails when it reaches a file whose path compares equal and on
which `getCommitInfo` fails, unless it has failed before. -/
theorem filesLoop_abort_at (ws : Str) (f : CommitFile) (F2 : List CommitFile) (e : String)
    (hfail : getCommitInfo f = .err e) :
    ∀ (F1 : List CommitFile) (r : result) (acc : List commentBlock),
      (fun p => ReplaceAll p ws [])^[F1.length + 1] r.Range.Filename = f.Filename →
      ∃ e2, filesLoop ws (F1 ++ f :: F2) r acc = .err e2 := by
  intro F1
  induction F1 with
  | nil =>
    intro r acc h
    have h1 : (stripWorkspace ws r).Range.Filename = f.Filename := h
    exact ⟨e, by simp only [List.nil_append, filesLoop, h1, if_true, hfail]⟩
  | cons g F1 ih =>
    intro r acc h
    have h1 : (fun p => ReplaceAll p ws [])^[F1.length + 1] (stripWorkspace ws r).Range.Filename =
        f.Filename := by
      rw [List.length_cons, Function.iterate_succ_apply] at h
      exact h
    simp only [List.cons_append, filesLoop]
    split
    · split
      · exact ⟨_, rfl⟩
      · split
        · exact ih _ _ h1
        · exact ih _ _ h1
    · exact ih _ _ h1

theorem getRelevantResults_single (root : Str) (r : result) (f : CommitFile)
    (h : normalizedPath root r = f.Filename) :
    getRelevantResults root (.ok [r]) [f] =
      match getCommitInfo f with
      | .err e => .err e
      | .ok info => if shouldInclude r info then .ok [annotationOf r info] else .ok [] := by
  have h1 : (stripWorkspace (root ++ ['/']) r).Range.Filename = f.Filename := h
  simp only [getRelevantResults, resultsLoop, filesLoop, h1, if_true]
  cases getCommitInfo f with
  | err e => rfl
  | ok info =>
    simp only [shouldInclude_stripWorkspace]
    by_cases hinc : shouldInclude r info = true
    · simp only [hinc, if_true]; rfl
    · simp only [hinc, if_false]; rfl

/-- `Atoi` on a non-empty digit string: the value when it fits an `int`, the
largest `int` and an error otherwise. -/
theorem Atoi_digits_eq {d : Str} (h : IsNumber d) :
    Atoi d = if (decimalValue d : Int) ≤ maxInt then ((decimalValue d : Int), true)
      else (maxInt, false) := by
  have hv := digitsValue_eq h
  obtain ⟨h0, hd⟩ := h
  cases d with
  | nil => exact absurd rfl h0
  | cons c t =>
    obtain ⟨n1, n2⟩ := digit_ne_sign (hd c (by simp))
    unfold Atoi
    split
    · simp_all
    · simp_all
    · simp_all
    · simp only [hv]

/-- In a text with a single `+`, what follows the `+` is determined. -/
theorem after_single_plus {P Q x R : Str} (hP : '+' ∉ P) (hQ : '+' ∉ Q)
    (h : P ++ '+' :: Q = x ++ '+' :: R) : Q = R := by
  rcases List.append_eq_append_iff.1 h with ⟨a, -, e2⟩ | ⟨c, e1, e2⟩
  · cases a with
    | nil => simpa using e2
    | cons d a =>
      simp only [List.cons_append, List.cons.injEq] at e2
      exact absurd (by rw [e2.2]; simp) hQ
  · cases c with
    | nil => simpa using e2.symm
    | cons d c =>
      simp only [List.cons_append, List.cons.injEq] at e2
      exact absurd (by rw [e1, ← e2.1]; simp) hP

/-- A first line `@@ P+s @@`, with no `+` in `P` and digits `s`, has no match of
`patchRegex`. -/
theorem run_patchRegex_no_count (P s later : Str) (hP : '+' ∉ P)
    (hs : ∀ c ∈ s, digit c = true) (hlater : ∀ c t, later = c :: t → c = '\n') :
    run patchRegex true ('@' :: '@' :: (P ++ '+' :: (s ++ ' ' :: '@' :: '@' :: later))) = [] := by
  by_contra hne
  obtain ⟨m, hm⟩ := List.exists_mem_of_ne_nil _ hne
  obtain ⟨x, d1, d2, y, e, -, hx, hd0, hd1, -, -, -, -⟩ := mem_run_patchRegex hm
  simp only [List.cons.injEq, true_and] at e
  -- the part of the match up to the comma lies on the first line
  have e2 : (x ++ '+' :: (d1 ++ [','])) ++ (d2 ++ (y ++ '@' :: '@' :: m.rest)) =
      (P ++ '+' :: (s ++ [' ', '@', '@'])) ++ later := by
    rw [← List.append_assoc] at e
    simp only [List.append_assoc, List.cons_append, List.nil_append, List.singleton_append] at e ⊢
    exact e.symm
  obtain ⟨Z, hZ⟩ := starts_first_line e2 (by
    intro c hc
    simp only [List.mem_append, List.mem_cons, List.mem_singleton, List.not_mem_nil,
      or_false] at hc
    rcases hc with hc | rfl | hc | rfl
    · exact hx c hc
    · decide
    · exact digit_dot (hd1 c hc)
    · decide) hlater
  have hQ : '+' ∉ s ++ [' ', '@', '@'] := by
    intro hmem
    simp only [List.mem_append, List.mem_cons, List.mem_singleton, List.not_mem_nil,
      or_false] at hmem
    rcases hmem with hmem | hmem | hmem | hmem
    · exact absurd (hs _ hmem) (by decide)
    · exact absurd hmem (by decide)
    · exact absurd hmem (by decide)
    · exact absurd hmem (by decide)
  have e3 : P ++ '+' :: (s ++ [' ', '@', '@']) = x ++ '+' :: (d1 ++ ',' :: Z) := by
    rw [hZ]; simp
  have e4 := after_single_plus hP hQ e3
  -- after the digits of `s` comes a blank, not a comma
  have hcomma : ',' ∈ s ++ [' ', '@', '@'] := by rw [e4]; simp
  simp only [List.mem_append, List.mem_cons, List.mem_singleton, List.not_mem_nil,
    or_false] at hcomma
  rcases hcomma with hmem | hmem | hmem | hmem
  · exact absurd (hs _ hmem) (by decide)
  · exact absurd hmem (by decide)
  · exact absurd hmem (by decide)
  · exact absurd hmem (by decide)

theorem replaceLoop_length_le (old : Str) :
    ∀ (s : Str) (k : Nat), (replaceLoop old [] k s).length ≤ s.length := by
  intro s
  induction s with
  | nil => intro k; cases k <;> simp [replaceLoop]
  | cons c t ih =>
    intro k
    cases k with
    | zero =>
      rw [replaceLoop_zero_cons]
      split
      · have := ih (old.length - 1)
        simp only [List.nil_append, List.length_cons]
        omega
      · have := ih 0
        simp only [List.length_cons]
        omega
    | succ k =>
      have := ih k
      simp only [replaceLoop, List.length_cons]
      omega

/-- Removing the occurrences of `old` from a text that has one makes it shorter. -/
theorem replaceLoop_length_lt (old : Str) :
    ∀ s : Str, old <:+: s → old ≠ [] → (replaceLoop old [] 0 s).length < s.length := by
  intro s
  induction s with
  | nil =>
    intro h h0
    exact absurd (List.eq_nil_of_infix_nil h) h0
  | cons c t ih =>
    intro h h0
    rw [replaceLoop_zero_cons]
    split
    · have := replaceLoop_length_le old t (old.length - 1)
      simp only [List.nil_append, List.length_cons]
      omega
    · rename_i hp
      have ht : old <:+: t := by
        rcases List.infix_cons_iff.1 h with h1 | h1
        · exact absurd (List.isPrefixOf_iff_prefix.2 h1) hp
        · exact h1
      have := ih ht h0
      simp only [List.length_cons]
      omega

/-- A round of replacement changes a text exactly when the text has an occurrence. -/
theorem ReplaceAll_eq_self_iff {old : Str} (s : Str) (h0 : old ≠ []) :
    ReplaceAll s old [] = s ↔ ¬ old <:+: s := by
  constructor
  · intro h hinf
    have := replaceLoop_length_lt old s hinf h0
    simp only [ReplaceAll, h0, if_false] at h
    rw [h] at this
    omega
  · exact ReplaceAll_of_no_occurrence s h0

/-! ## The leftmost occurrence -/

/-- The leftmost occurrence of `old` is removed, wherever it stands, and the
replacement goes on after it. -/
theorem replaceLoop_leftmost (old y : Str) (h0 : old ≠ []) :
    ∀ x : Str, ¬ old <:+: x ++ old.dropLast →
      replaceLoop old [] 0 (x ++ old ++ y) = x ++ replaceLoop old [] 0 y := by
  intro x
  induction x with
  | nil =>
    intro _
    have := ReplaceAll_append_self y h0
    simp only [ReplaceAll, h0, if_false] at this
    simpa using this
  | cons c t ih =>
    intro h
    have h1 : old.isPrefixOf (c :: (t ++ old ++ y)) = false := by
      cases hp : old.isPrefixOf (c :: (t ++ old ++ y)) with
      | false => rfl
      | true =>
        exfalso
        have p1 : old <+: c :: (t ++ old ++ y) := List.isPrefixOf_iff_prefix.1 hp
        have p2 : (c :: t) ++ old.dropLast <+: c :: (t ++ old ++ y) := by
          refine ⟨[old.getLast h0] ++ y, ?_⟩
          have e : old.dropLast ++ [old.getLast h0] = old := List.dropLast_append_getLast h0
          calc (c :: t) ++ old.dropLast ++ ([old.getLast h0] ++ y)
              = (c :: t) ++ (old.dropLast ++ [old.getLast h0]) ++ y := by
                simp only [List.append_assoc]
            _ = c :: (t ++ old ++ y) := by rw [e]; simp
        have hl : old.length ≤ ((c :: t) ++ old.dropLast).length := by
          have : old.length ≠ 0 := fun e => h0 (List.length_eq_zero.1 e)
          simp only [List.length_append, List.length_cons, List.length_dropLast]
          omega
        exact h (List.prefix_of_prefix_length_le p1 p2 hl).isInfix
    have h2 : ¬ old <:+: t ++ old.dropLast := fun hi =>
      h (hi.trans (List.suffix_cons c (t ++ old.dropLast)).isInfix)
    rw [List.cons_append, List.cons_append, replaceLoop_zero_cons, h1]
    simp only [Bool.false_eq_true, if_false, List.cons_append, List.cons.injEq, true_and]
    exact ih h2

theorem ReplaceAll_leftmost {old : Str} (x y : Str) (h0 : old ≠ [])
    (h : ¬ old <:+: x ++ old.dropLast) :
    ReplaceAll (x ++ old ++ y) old [] = x ++ ReplaceAll y old [] := by
  simp only [ReplaceAll, h0, if_false]
  exact replaceLoop_leftmost old y h0 x h

/-- The run on one finding and one changed file. -/
theorem getRelevantResults_single_eq (root : Str) (r : result) (f : CommitFile) :
    getRelevantResults root (.ok [r]) [f] =
      if normalizedPath root r = f.Filename then
        match getCommitInfo f with
        | .err e => .err e
        | .ok info => if shouldInclude r info then .ok [annotationOf r info] else .ok []
      else .ok [] := by
  by_cases h : normalizedPath root r = f.Filename
  · rw [if_pos h]
    exact getRelevantResults_single root r f h
  · rw [if_neg h]
    have h1 : ¬ (stripWorkspace (root ++ ['/']) r).Range.Filename = f.Filename := h
    simp only [getRelevantResults, resultsLoop, filesLoop, h1, if_false]

/-! ## Findings outside the range of the header -/

/-- On a patch whose first line is a hunk header followed by section text without
`@@`, the hunk fields are the conversions of the new-file side. -/
theorem getCommitInfo_header_info {file : CommitFile} {info : commitFileInfo}
    (h : getCommitInfo file = .ok info) (a b s c sec later : Str)
    (ha : IsNumber a) (hb : IsNumber b) (hs : IsNumber s) (hc : IsNumber c)
    (hsec : ¬ "@@".toList <:+: sec) (hlater : later = [] ∨ ∃ t, later = '\n' :: t)
    (hpatch : file.GetPatch = "@@ -".toList ++ a ++ ",".toList ++ b ++ " +".toList ++ s ++
      ",".toList ++ c ++ " @@".toList ++ sec ++ later) :
    info.hunkStart = (Atoi s).1 ∧ info.hunkEnd = (Atoi c).1 := by
  have hrest : ∀ x t, later = x :: t → x = '\n' := by
    intro x t e
    rcases hlater with h | ⟨t2, h⟩
    · rw [h] at e; cases e
    · rw [h] at e
      simp only [List.cons.injEq] at e
      exact e.1.symm
  obtain ⟨m, hm, hcaps⟩ := run_patchRegex_head a b s c sec later ha.2 hb.2 hs.1 hs.2 hc.1 hc.2
    hsec hrest
  have hp : file.GetPatch = '@' :: '@' :: ' ' :: '-' :: (a ++ ',' :: (b ++ ' ' :: '+' ::
      (s ++ ',' :: (c ++ ' ' :: '@' :: '@' :: (sec ++ later))))) := by
    rw [hpatch]
    simp [show "@@ -".toList = ['@', '@', ' ', '-'] from rfl,
      show ",".toList = [','] from rfl, show " +".toList = [' ', '+'] from rfl,
      show " @@".toList = [' ', '@', '@'] from rfl]
  rw [getCommitInfo_eq, hp, hm] at h
  simp only [hcaps, List.getD_cons_zero, List.getD_cons_succ] at h
  cases hr : findFrom commitRefRegex true file.GetContentsURL with
  | none => simp [hr] at h
  | some x =>
    simp only [hr, Outcome.ok.injEq] at h
    subst h
    exact ⟨rfl, rfl⟩

/-- A finding that is not strictly inside the range written in the header is not
included, whether or not the numbers of the header fit an `int`. -/
theorem shouldInclude_outside_header {r : result} {info : commitFileInfo} {s c : Str}
    (hs : IsNumber s) (hc : IsNumber c)
    (h1 : info.hunkStart = (Atoi s).1) (h2 : info.hunkEnd = (Atoi c).1)
    (hout : ¬ ((decimalValue s : Int) < r.Range.StartLine ∧
      r.Range.StartLine < (decimalValue s : Int) + (decimalValue c : Int))) :
    shouldInclude r info = false := by
  cases hinc : shouldInclude r info with
  | false => rfl
  | true =>
    exfalso
    apply hout
    rw [Atoi_digits_eq hs] at h1
    rw [Atoi_digits_eq hc] at h2
    have n1 : (0 : Int) ≤ decimalValue s := Int.ofNat_nonneg _
    have n2 : (0 : Int) ≤ decimalValue c := Int.ofNat_nonneg _
    have m0 : (0 : Int) ≤ maxInt := by decide
    have r1 : 0 ≤ info.hunkStart ∧ info.hunkStart ≤ maxInt := by
      rw [h1]; split <;> simp <;> omega
    have r2 : 0 ≤ info.hunkEnd ∧ info.hunkEnd ≤ maxInt := by
      rw [h2]; split <;> simp <;> omega
    obtain ⟨i1, i2, i3⟩ := shouldInclude_bounds hinc r1.1 r1.2 r2.1 r2.2
    by_cases f1 : (decimalValue s : Int) ≤ maxInt
    · rw [if_pos f1] at h1
      simp only at h1
      by_cases f2 : (decimalValue c : Int) ≤ maxInt
      · rw [if_pos f2] at h2
        simp only at h2
        omega
      · rw [if_neg f2] at h2
        simp only at h2
        omega
    · rw [if_neg f1] at h1
      simp only at h1
      omega

/-- Findings that the one changed file excludes leave the slice as it is. -/
theorem resultsLoop_single_excluded (ws : Str) (file : CommitFile) (info : commitFileInfo)
    (h : getCommitInfo file = .ok info) :
    ∀ (results : List result) (acc : List commentBlock),
      (∀ r ∈ results, shouldInclude r info = false) →
      resultsLoop ws [file] results acc = .ok acc := by
  intro results
  induction results with
  | nil => intro acc _; rfl
  | cons r results ih =>
    intro acc hex
    have hf : filesLoop ws [file] r acc = .ok acc := by
      simp only [filesLoop, h, shouldInclude_stripWorkspace, hex r (by simp)]
      split <;> simp
    simp only [resultsLoop, hf]
    exact ih acc (fun r2 hr2 => hex r2 (by simp [hr2]))

/-! # The claims -/

/-! ## C1 -/

/-- C1 (counterexample): with hunk start and count 2^62, as parsed from a hunk
header, the sum wraps around and the finding at line 2^62 + 1 is excluded, although
it lies strictly between the start and the start plus the count. -/
theorem shouldInclude_wraps :
    getCommitInfo (changedFile "main.tf"
        "@@ -1,1 +4611686018427387904,4611686018427387904 @@"
        "https://api.github.com/repos/o/r/contents/main.tf?ref=abc") =
      .ok ⟨"main.tf".toList, 4611686018427387904, 4611686018427387904, "abc".toList⟩ ∧
    shouldInclude (findingAt "main.tf".toList 4611686018427387905 4611686018427387905)
      ⟨"main.tf".toList, 4611686018427387904, 4611686018427387904, "abc".toList⟩ = false ∧
    (4611686018427387904 : Int) < 4611686018427387905 ∧
    (4611686018427387905 : Int) < 4611686018427387904 + 4611686018427387904 := by
  refine ⟨by decide!, by decide!, by decide, by decide⟩

/-- C1 (amended): when the sum of hunk start and count is within the range of
`int`, `shouldInclude` is true exactly for a start line strictly between the hunk
start and the hunk start plus the count; it is false on both bounds. -/
theorem shouldInclude_iff (r : result) (info : commitFileInfo)
    (hlo : minInt ≤ info.hunkStart + info.hunkEnd)
    (hhi : info.hunkStart + info.hunkEnd ≤ maxInt) :
    (shouldInclude r info = true ↔
      info.hunkStart < r.Range.StartLine ∧
        r.Range.StartLine < info.hunkStart + info.hunkEnd) ∧
    (r.Range.StartLine = info.hunkStart → shouldInclude r info = false) ∧
    (r.Range.StartLine = info.hunkStart + info.hunkEnd → shouldInclude r info = false) := by
  have hw := wrapInt_eq_self hlo hhi
  refine ⟨?_, ?_, ?_⟩
  · simp only [shouldInclude, hw, Bool.and_eq_true, decide_eq_true_eq]
    constructor
    · rintro ⟨h1, h2⟩; exact ⟨h2, h1⟩
    · rintro ⟨h1, h2⟩; exact ⟨h2, h1⟩
  · intro h
    simp [shouldInclude, h]
  · intro h
    simp [shouldInclude, hw, h]

/-- C1 (witness): with the header `@@ -10,5 +10,5 @@`, line 12 is included, lines 10 and 15
are excluded. -/
theorem shouldInclude_iff_witness :
    minInt ≤ (10 : Int) + 5 ∧ (10 : Int) + 5 ≤ maxInt ∧
    shouldInclude (findingAt "main.tf".toList 12 12) ⟨"main.tf".toList, 10, 5, "abc".toList⟩
      = true ∧
    shouldInclude (findingAt "main.tf".toList 10 10) ⟨"main.tf".toList, 10, 5, "abc".toList⟩
      = false ∧
    shouldInclude (findingAt "main.tf".toList 15 15) ⟨"main.tf".toList, 10, 5, "abc".toList⟩
      = false :=
  ⟨by decide, by decide,
    (shouldInclude_iff (findingAt "main.tf".toList 12 12) ⟨"main.tf".toList, 10, 5, "abc".toList⟩
      (by decide) (by decide)).1.2 ⟨by decide, by decide⟩,
    (shouldInclude_iff (findingAt "main.tf".toList 10 10) ⟨"main.tf".toList, 10, 5, "abc".toList⟩
      (by decide) (by decide)).2.1 rfl,
    (shouldInclude_iff (findingAt "main.tf".toList 15 15) ⟨"main.tf".toList, 10, 5, "abc".toList⟩
      (by decide) (by decide)).2.2 rfl⟩

/-! ## C2 -/

/-- C2: every annotation of a successful run is built from a finding and a changed
file whose paths compared equal (the finding's path after as many rounds of
normalization as files were visited); it carries the file's path, the commit
reference of the file's URL, the finding's start and end line, the start line
minus the hunk start of the file's patch, and the finding's rule id, description
and provider. -/
theorem getRelevantResults_annotation (root : Str) (results : List result)
    (files : List CommitFile) (blocks : List commentBlock)
    (h : getRelevantResults root (.ok results) files = .ok blocks) :
    ∀ b ∈ blocks, ∃ r ∈ results, ∃ f ∈ files, ∃ info k,
      0 < k ∧ (fun p => ReplaceAll p (root ++ ['/']) [])^[k] r.Range.Filename = f.Filename ∧
      getCommitInfo f = .ok info ∧
      b.fileName = f.Filename ∧ b.sha = info.sha ∧
      b.startLine = r.Range.StartLine ∧ b.endLine = r.Range.EndLine ∧
      b.position = r.Range.StartLine - info.hunkStart ∧
      b.code = r.RuleID ∧ b.description = r.Description ∧ b.provider = r.RuleProvider := by
  intro b hb
  obtain ⟨r, hr, f, hf, info, k, hk, hpath, hinfo, hinc, rfl⟩ := getRelevantResults_origin h b hb
  obtain ⟨hname, s0, s1, c0, c1⟩ := getCommitInfo_ok_range hinfo
  obtain ⟨i1, i2, i3⟩ := shouldInclude_bounds hinc s0 s1 c0 c1
  refine ⟨r, hr, f, hf, info, k, hk, hpath, hinfo, hname, rfl, rfl, rfl, ?_, rfl, rfl, rfl⟩
  apply wrapInt_eq_self
  · unfold minInt; omega
  · unfold maxInt at *; omega

/-- C2 (witness): the header `@@ -10,5 +10,5 @@` and a finding at line 12 give one
annotation, with position 2. -/
theorem getRelevantResults_annotation_witness :
    getRelevantResults "/github/workspace".toList
      (.ok [findingAt "/github/workspace/main.tf".toList 12 14])
      [changedFile "main.tf" "@@ -10,5 +10,5 @@"
        "https://api.github.com/repos/o/r/contents/main.tf?ref=abc"] =
      .ok [{ fileName := "main.tf".toList, startLine := 12, endLine := 14, position := 2,
             sha := "abc".toList, code := "AWS002".toList,
             description := "Resource does not have logging enabled.".toList,
             provider := "aws".toList }] ∧
    ∀ b ∈ [(⟨"main.tf".toList, 12, 14, 2, "abc".toList, "AWS002".toList,
        "Resource does not have logging enabled.".toList, "aws".toList⟩ : commentBlock)],
      ∃ r ∈ [findingAt "/github/workspace/main.tf".toList 12 14],
      ∃ f ∈ [changedFile "main.tf" "@@ -10,5 +10,5 @@"
        "https://api.github.com/repos/o/r/contents/main.tf?ref=abc"], ∃ info k,
      0 < k ∧ (fun p => ReplaceAll p ("/github/workspace".toList ++ ['/']) [])^[k]
        r.Range.Filename = f.Filename ∧
      getCommitInfo f = .ok info ∧
      b.fileName = f.Filename ∧ b.sha = info.sha ∧
      b.startLine = r.Range.StartLine ∧ b.endLine = r.Range.EndLine ∧
      b.position = r.Range.StartLine - info.hunkStart ∧
      b.code = r.RuleID ∧ b.description = r.Description ∧ b.provider = r.RuleProvider :=
  ⟨by decide!, getRelevantResults_annotation _ _ _ _ (by decide!)⟩

/-! ## C3 -/

/-- C3: every annotation of a successful run has its start line strictly between
the hunk start and the hunk start plus the hunk count of the file it was built
from, so its position is between 1 and the count minus 1, and the count is at
least 2: when every changed file that resolves has a count of at most 1, there
is no annotation. -/
theorem getRelevantResults_within_hunk (root : Str) (results : List result)
    (files : List CommitFile) (blocks : List commentBlock)
    (h : getRelevantResults root (.ok results) files = .ok blocks) :
    (∀ b ∈ blocks, ∃ r ∈ results, ∃ f ∈ files, ∃ info k,
      0 < k ∧ (fun p => ReplaceAll p (root ++ ['/']) [])^[k] r.Range.Filename = f.Filename ∧
      getCommitInfo f = .ok info ∧ b.fileName = f.Filename ∧
      b.startLine = r.Range.StartLine ∧
      info.hunkStart < b.startLine ∧ b.startLine < info.hunkStart + info.hunkEnd ∧
      1 ≤ b.position ∧ b.position ≤ info.hunkEnd - 1 ∧ 2 ≤ info.hunkEnd) ∧
    ((∀ f ∈ files, ∀ info, getCommitInfo f = .ok info → info.hunkEnd ≤ 1) → blocks = []) := by
  have main : ∀ b ∈ blocks, ∃ r ∈ results, ∃ f ∈ files, ∃ info k,
      0 < k ∧ (fun p => ReplaceAll p (root ++ ['/']) [])^[k] r.Range.Filename = f.Filename ∧
      getCommitInfo f = .ok info ∧ b.fileName = f.Filename ∧
      b.startLine = r.Range.StartLine ∧
      info.hunkStart < b.startLine ∧ b.startLine < info.hunkStart + info.hunkEnd ∧
      1 ≤ b.position ∧ b.position ≤ info.hunkEnd - 1 ∧ 2 ≤ info.hunkEnd := ?_
  · refine ⟨main, ?_⟩
    intro hall
    cases hb : blocks with
    | nil => rfl
    | cons b tl =>
      exfalso
      obtain ⟨r, -, f, hf, info, k, -, -, hinfo, -, -, -, -, -, -, h2⟩ :=
        main b (by simp [hb])
      have := hall f hf info hinfo
      omega
  intro b hb
  obtain ⟨r, hr, f, hf, info, k, hk, hpath, hinfo, hinc, rfl⟩ := getRelevantResults_origin h b hb
  obtain ⟨hname, s0, s1, c0, c1⟩ := getCommitInfo_ok_range hinfo
  obtain ⟨i1, i2, i3⟩ := shouldInclude_bounds hinc s0 s1 c0 c1
  have hw : wrapInt (r.Range.StartLine - info.hunkStart) = r.Range.StartLine - info.hunkStart := by
    apply wrapInt_eq_self
    · unfold minInt; omega
    · unfold maxInt at *; omega
  refine ⟨r, hr, f, hf, info, k, hk, hpath, hinfo, hname, rfl, i1, i2, ?_, ?_, ?_⟩
  · show 1 ≤ wrapInt _
    rw [hw]; omega
  · show wrapInt _ ≤ _
    rw [hw]; omega
  · omega

/-- C3 (witness): of two findings on `main.tf`, at lines 13 and 15, only the first yields an
annotation; it lies within the hunk `+10,5`. -/
theorem getRelevantResults_within_hunk_witness :
    getRelevantResults "/github/workspace".toList
      (.ok [findingAt "/github/workspace/main.tf".toList 13 13,
        findingAt "/github/workspace/main.tf".toList 15 15])
      [changedFile "main.tf" "@@ -10,5 +10,5 @@"
        "https://api.github.com/repos/o/r/contents/main.tf?ref=abc"] =
      .ok [⟨"main.tf".toList, 13, 13, 3, "abc".toList, "AWS002".toList,
        "Resource does not have logging enabled.".toList, "aws".toList⟩] ∧
    ∀ b ∈ [(⟨"main.tf".toList, 13, 13, 3, "abc".toList, "AWS002".toList,
        "Resource does not have logging enabled.".toList, "aws".toList⟩ : commentBlock)],
      ∃ r ∈ [findingAt "/github/workspace/main.tf".toList 13 13,
        findingAt "/github/workspace/main.tf".toList 15 15],
      ∃ f ∈ [changedFile "main.tf" "@@ -10,5 +10,5 @@"
        "https://api.github.com/repos/o/r/contents/main.tf?ref=abc"], ∃ info k,
      0 < k ∧ (fun p => ReplaceAll p ("/github/workspace".toList ++ ['/']) [])^[k]
        r.Range.Filename = f.Filename ∧
      getCommitInfo f = .ok info ∧ b.fileName = f.Filename ∧
      b.startLine = r.Range.StartLine ∧
      info.hunkStart < b.startLine ∧ b.startLine < info.hunkStart + info.hunkEnd ∧
      1 ≤ b.position ∧ b.position ≤ info.hunkEnd - 1 ∧ 2 ≤ info.hunkEnd :=
  ⟨by decide!, (getRelevantResults_within_hunk "/github/workspace".toList _ _ _ (by decide!)).1⟩

/-! ## C4 -/

/-- C4: on a patch whose first line is a hunk header `@@ -a,b +s,c @@`, possibly
followed by section text without `@@`, whatever the later lines are,
`getCommitInfo` succeeds (given a URL whose reference resolves) with the hunk
start `s` and the hunk count `c` of the new-file side. -/
theorem getCommitInfo_hunk (file : CommitFile) (a b s c sec later : Str)
    (ha : IsNumber a) (hb : IsNumber b) (hs : IsNumber s) (hc : IsNumber c)
    (hsfit : (decimalValue s : Int) ≤ maxInt) (hcfit : (decimalValue c : Int) ≤ maxInt)
    (hsec : ¬ "@@".toList <:+: sec) (hlater : later = [] ∨ ∃ t, later = '\n' :: t)
    (hpatch : file.GetPatch = "@@ -".toList ++ a ++ ",".toList ++ b ++ " +".toList ++ s ++
      ",".toList ++ c ++ " @@".toList ++ sec ++ later)
    (hurl : FindAllStringSubmatch commitRefRegex file.GetContentsURL ≠ []) :
    ∃ info, getCommitInfo file = .ok info ∧
      info.hunkStart = decimalValue s ∧ info.hunkEnd = decimalValue c := by
  have hrest : ∀ x t, later = x :: t → x = '\n' := by
    intro x t e
    rcases hlater with h | ⟨t2, h⟩
    · rw [h] at e; cases e
    · rw [h] at e
      simp only [List.cons.injEq] at e
      exact e.1.symm
  obtain ⟨m, hm, hcaps⟩ := run_patchRegex_head a b s c sec later ha.2 hb.2 hs.1 hs.2 hc.1 hc.2
    hsec hrest
  have hp : file.GetPatch = '@' :: '@' :: ' ' :: '-' :: (a ++ ',' :: (b ++ ' ' :: '+' ::
      (s ++ ',' :: (c ++ ' ' :: '@' :: '@' :: (sec ++ later))))) := by
    rw [hpatch]
    simp [show "@@ -".toList = ['@', '@', ' ', '-'] from rfl,
      show ",".toList = [','] from rfl, show " +".toList = [' ', '+'] from rfl,
      show " @@".toList = [' ', '@', '@'] from rfl]
  obtain ⟨x, hx⟩ := FindAll_ne_nil hurl
  rw [getCommitInfo_eq, hp, hm]
  simp only [hx, hcaps, List.getD_cons_zero, List.getD_cons_succ]
  exact ⟨_, rfl, Atoi_digits_value hs hsfit, Atoi_digits_value hc hcfit⟩

/-- C4 (witness): the new-file side `+10,5` is returned, not the old side `-7,9`, and neither
the section text nor the later hunk matters. -/
theorem getCommitInfo_hunk_witness :
    ∃ info, getCommitInfo (changedFile "main.tf"
        "@@ -7,9 +10,5 @@ resource aws_s3_bucket b\n   acl = private\n@@ -50,3 +46,3 @@"
        "https://api.github.com/repos/o/r/contents/main.tf?ref=abc") = .ok info ∧
      info.hunkStart = 10 ∧ info.hunkEnd = 5 := by
  obtain ⟨info, h1, h2, h3⟩ := getCommitInfo_hunk (changedFile "main.tf"
    "@@ -7,9 +10,5 @@ resource aws_s3_bucket b\n   acl = private\n@@ -50,3 +46,3 @@"
    "https://api.github.com/repos/o/r/contents/main.tf?ref=abc")
    "7".toList "9".toList "10".toList "5".toList
    " resource aws_s3_bucket b".toList
    "\n   acl = private\n@@ -50,3 +46,3 @@".toList
    ⟨by decide, by decide⟩ ⟨by decide, by decide⟩ ⟨by decide, by decide⟩ ⟨by decide, by decide⟩
    (by decide!) (by decide!) (by decide!) (Or.inr ⟨_, rfl⟩) (by rfl) (by decide!)
  exact ⟨info, h1, h2.trans (by decide!), h3.trans (by decide!)⟩

/-! ## C5 -/

/-- C5 (counterexample): the first hunk header `@@ -1,3 +1,3 @@` is followed on its
line by the section text ` f +50,3 x@@`. The greedy `.*` of the pattern reaches
the last `+` of the line, so the hunk info is 50 and 3, with or without the later
hunk, and the finding at line 51, inside the later hunk `+50,3` and outside the
first hunk `+1,3`, is annotated. -/
theorem section_text_read_as_hunk :
    "@@ -1,3 +1,3 @@ f +50,3 x@@\n a\n-b\n+c\n d\n@@ -50,3 +50,3 @@\n e\n-f\n+g\n h".toList =
      "@@ -1,3 +1,3 @@".toList ++ " f +50,3 x@@".toList ++ "\n a\n-b\n+c\n d".toList ++
        '\n' :: "@@ -50,3 +50,3 @@\n e\n-f\n+g\n h".toList ∧
    getCommitInfo (changedFile "main.tf" "@@ -1,3 +1,3 @@ f +50,3 x@@\n a\n-b\n+c\n d"
        "https://api.github.com/repos/o/r/contents/main.tf?ref=abc") =
      .ok ⟨"main.tf".toList, 50, 3, "abc".toList⟩ ∧
    getCommitInfo (changedFile "main.tf"
        "@@ -1,3 +1,3 @@ f +50,3 x@@\n a\n-b\n+c\n d\n@@ -50,3 +50,3 @@\n e\n-f\n+g\n h"
        "https://api.github.com/repos/o/r/contents/main.tf?ref=abc") =
      .ok ⟨"main.tf".toList, 50, 3, "abc".toList⟩ ∧
    ¬ ((decimalValue "1".toList : Int) <
          (findingAt "/github/workspace/main.tf".toList 51 51).Range.StartLine ∧
        (findingAt "/github/workspace/main.tf".toList 51 51).Range.StartLine <
          (decimalValue "1".toList : Int) + (decimalValue "3".toList : Int)) ∧
    getRelevantResults "/github/workspace".toList
      (.ok [findingAt "/github/workspace/main.tf".toList 51 51])
      [changedFile "main.tf"
        "@@ -1,3 +1,3 @@ f +50,3 x@@\n a\n-b\n+c\n d\n@@ -50,3 +50,3 @@\n e\n-f\n+g\n h"
        "https://api.github.com/repos/o/r/contents/main.tf?ref=abc"] =
      .ok [⟨"main.tf".toList, 51, 51, 1, "abc".toList, "AWS002".toList,
        "Resource does not have logging enabled.".toList, "aws".toList⟩] := by
  refine ⟨by rfl, by decide!, by decide!, by decide!, by decide!⟩

/-- C5 (amended): `getCommitInfo` reads the first line of the patch only. When it
succeeds on a patch, it returns the same hunk info on that patch followed by a
line break and any further text. When moreover the first line of the patch is a
hunk header `@@ -a,b +s,c @@`, possibly followed by section text without `@@`,
findings whose start line is not strictly between `s` and `s + c` give no
annotation on the longer patch, whatever later hunks it has: the run on that
file alone returns the empty list, and in a run on any findings and any changed
files the pairs of such a finding with that file contribute nothing. -/
theorem getCommitInfo_first_hunk_only (file : CommitFile) (info : commitFileInfo) (T : Str)
    (h : getCommitInfo file = .ok info) :
    getCommitInfo { file with Patch := some (file.GetPatch ++ '\n' :: T) } = .ok info ∧
    ∀ (a b s c sec later : Str), IsNumber a → IsNumber b → IsNumber s → IsNumber c →
      ¬ "@@".toList <:+: sec → (later = [] ∨ ∃ t, later = '\n' :: t) →
      file.GetPatch = "@@ -".toList ++ a ++ ",".toList ++ b ++ " +".toList ++ s ++
        ",".toList ++ c ++ " @@".toList ++ sec ++ later →
      (∀ (root : Str) (results : List result),
        (∀ r ∈ results, ¬ ((decimalValue s : Int) < r.Range.StartLine ∧
          r.Range.StartLine < (decimalValue s : Int) + (decimalValue c : Int))) →
        getRelevantResults root (.ok results)
          [{ file with Patch := some (file.GetPatch ++ '\n' :: T) }] = .ok []) ∧
      (∀ (root : Str) (results : List result) (files : List CommitFile)
          (blocks : List commentBlock),
        getRelevantResults root (.ok results) files = .ok blocks →
        blocks = results.flatMap fun r => files.enum.filterMap fun x =>
          if x.2 = { file with Patch := some (file.GetPatch ++ '\n' :: T) } ∧
              ¬ ((decimalValue s : Int) < r.Range.StartLine ∧
                r.Range.StartLine < (decimalValue s : Int) + (decimalValue c : Int))
          then none else annotationOfPair (root ++ ['/']) r x) := by
  have h1 : getCommitInfo { file with Patch := some (file.GetPatch ++ '\n' :: T) } = .ok info := by
    rw [getCommitInfo_eq] at h ⊢
    have e : CommitFile.GetPatch { file with Patch := some (file.GetPatch ++ '\n' :: T) } =
        file.GetPatch ++ '\n' :: T := rfl
    have e2 : CommitFile.GetContentsURL { file with Patch := some (file.GetPatch ++ '\n' :: T) } =
        file.GetContentsURL := rfl
    rw [e, e2, run_append_line T patchRegex patchRegex_noLF, List.head?_map]
    cases hp : (run patchRegex true file.GetPatch).head? with
    | none => simp [hp] at h
    | some m =>
      rw [hp] at h
      exact h
  refine ⟨h1, ?_⟩
  intro a b s c sec later ha hb hs hc hsec hlater hpatch
  obtain ⟨i1, i2⟩ := getCommitInfo_header_info h a b s c sec later ha hb hs hc hsec hlater hpatch
  constructor
  · intro root results hout
    exact resultsLoop_single_excluded _ _ info h1 results []
      (fun r hr => shouldInclude_outside_header hs hc i1 i2 (hout r hr))
  · intro root results files blocks hrun
    have h2 := resultsLoop_eq_flatMap (root ++ ['/']) files results [] blocks hrun
    rw [h2, List.nil_append]
    congr 1
    funext r
    congr 1
    funext x
    split
    · rename_i hx
      have hex := shouldInclude_outside_header hs hc i1 i2 hx.2
      simp only [annotationOfPair, hx.1, h1, hex]
      split <;> simp
    · rfl

/-- C5 (witness): with the hunks `@@ -1,3 +1,3 @@` and `@@ -50,3 +50,3 @@` the hunk info is
that of the first hunk alone, and findings at the lines 51 and 52 give no
annotation. -/
theorem getCommitInfo_first_hunk_only_witness :
    getCommitInfo (changedFile "main.tf" "@@ -1,3 +1,3 @@\n a\n-b\n+c\n d"
        "https://api.github.com/repos/o/r/contents/main.tf?ref=abc") =
      .ok ⟨"main.tf".toList, 1, 3, "abc".toList⟩ ∧
    getCommitInfo (changedFile "main.tf"
        "@@ -1,3 +1,3 @@\n a\n-b\n+c\n d\n@@ -50,3 +50,3 @@\n e\n-f\n+g\n h"
        "https://api.github.com/repos/o/r/contents/main.tf?ref=abc") =
      .ok ⟨"main.tf".toList, 1, 3, "abc".toList⟩ ∧
    getRelevantResults "/github/workspace".toList
      (.ok [findingAt "/github/workspace/main.tf".toList 51 51,
        findingAt "/github/workspace/main.tf".toList 52 52])
      [changedFile "main.tf"
        "@@ -1,3 +1,3 @@\n a\n-b\n+c\n d\n@@ -50,3 +50,3 @@\n e\n-f\n+g\n h"
        "https://api.github.com/repos/o/r/contents/main.tf?ref=abc"] = .ok [] :=
  ⟨by decide!,
    (getCommitInfo_first_hunk_only (changedFile "main.tf" "@@ -1,3 +1,3 @@\n a\n-b\n+c\n d"
        "https://api.github.com/repos/o/r/contents/main.tf?ref=abc")
      ⟨"main.tf".toList, 1, 3, "abc".toList⟩ "@@ -50,3 +50,3 @@\n e\n-f\n+g\n h".toList
      (by decide!)).1,
    ((getCommitInfo_first_hunk_only (changedFile "main.tf" "@@ -1,3 +1,3 @@\n a\n-b\n+c\n d"
        "https://api.github.com/repos/o/r/contents/main.tf?ref=abc")
      ⟨"main.tf".toList, 1, 3, "abc".toList⟩ "@@ -50,3 +50,3 @@\n e\n-f\n+g\n h".toList
      (by decide!)).2 "1".toList "3".toList "1".toList "3".toList [] "\n a\n-b\n+c\n d".toList
      ⟨by decide, by decide⟩ ⟨by decide, by decide⟩ ⟨by decide, by decide⟩
      ⟨by decide, by decide⟩ (by decide!) (Or.inr ⟨_, rfl⟩) (by rfl)).1
      "/github/workspace".toList
      [findingAt "/github/workspace/main.tf".toList 51 51,
        findingAt "/github/workspace/main.tf".toList 52 52] (by decide!)⟩

/-! ## C6 -/

/-- C6 (counterexample): the header `@@ -1 +1,2 @@`, as unified diff writes it for
an old side of one line, is not of the form `@@ -a,b +s,c @@`, and `getCommitInfo`
resolves it. -/
theorem patch_without_old_count_resolves :
    ¬ ContainsHunkHeader "@@ -1 +1,2 @@\n-one\n+uno\n+dos".toList ∧
    getCommitInfo (changedFile "main.tf" "@@ -1 +1,2 @@\n-one\n+uno\n+dos"
        "https://api.github.com/repos/o/r/contents/main.tf?ref=abc") =
      .ok ⟨"main.tf".toList, 1, 2, "abc".toList⟩ := by
  refine ⟨?_, by decide!⟩
  intro h
  have := h.two_commas
  revert this
  decide!

/-- C6 (amended): when the patch does not start with `@@` followed on its first
line by `+`, a number, a comma, a number, at least one more character and `@@`,
`getCommitInfo` returns the patch error, whatever the contents URL is. -/
theorem getCommitInfo_patch_error (file : CommitFile)
    (h : ¬ StartsWithLooseHeader file.GetPatch) :
    getCommitInfo file = .err "the patch details could not be resolved" := by
  rw [getCommitInfo_eq]
  cases hp : (run patchRegex true file.GetPatch).head? with
  | none => rfl
  | some m =>
    exfalso
    apply h
    obtain ⟨x, d1, d2, y, e, -, hx, p1, p2, p3, p4, p5, p6⟩ :=
      mem_run_patchRegex (List.mem_of_mem_head? hp)
    refine ⟨x, d1, d2, y, m.rest, ⟨p1, p2⟩, ⟨p3, p4⟩, p5, not_mem_of_dot hx, not_mem_of_dot p6, ?_⟩
    rw [e]
    simp [show "@@".toList = ['@', '@'] from rfl, show "+".toList = ['+'] from rfl,
      show ",".toList = [','] from rfl]

/-- C6 (witness): an absent patch with an absent URL, and an empty patch with a URL without
reference, both give the patch error. -/
theorem getCommitInfo_patch_error_witness :
    getCommitInfo { Filename := "logo.png".toList, Patch := none, ContentsURL := none } =
      .err "the patch details could not be resolved" ∧
    getCommitInfo (changedFile "main.tf" "" "https://api.github.com/repos/o/r/contents/main.tf") =
      .err "the patch details could not be resolved" :=
  ⟨getCommitInfo_patch_error _ (by
      rintro ⟨x, s, c, y, z, -, -, -, -, -, e⟩
      simp [CommitFile.GetPatch, show "@@".toList = ['@', '@'] from rfl] at e),
    getCommitInfo_patch_error _ (by
      rintro ⟨x, s, c, y, z, -, -, -, -, -, e⟩
      simp [CommitFile.GetPatch, changedFile, show "@@".toList = ['@', '@'] from rfl] at e)⟩

/-! ## C7 -/

/-- C7 (counterexample): a URL made of a non-empty prefix, `ref=` and the value
`abc`, in which the prefix ends with a line break: the reference does not resolve. -/
theorem ref_after_line_break_unresolved :
    "https://api.github.com/repos/o/r/contents/main.tf?\nref=abc".toList =
      "https://api.github.com/repos/o/r/contents/main.tf?\n".toList ++ "ref=".toList ++
        "abc".toList ∧
    FindAllStringSubmatch patchRegex "@@ -10,5 +10,5 @@".toList ≠ [] ∧
    getCommitInfo (changedFile "main.tf" "@@ -10,5 +10,5 @@"
        "https://api.github.com/repos/o/r/contents/main.tf?\nref=abc") =
      .err "the sha details could not be resolved" := by
  refine ⟨by rfl, by decide!, by decide!⟩

/-- C7 (amended): for a contents URL made of a non-empty prefix without line
break, `ref=` and a non-empty value without `&`, `=` and line break, and a patch
that resolves, `getCommitInfo` succeeds and `sha` is the value. -/
theorem getCommitInfo_sha (file : CommitFile) (pre value : Str)
    (hpre : pre ≠ []) (hpreLF : '\n' ∉ pre) (hval : value ≠ [])
    (_hamp : '&' ∉ value) (heq : '=' ∉ value) (hvalLF : '\n' ∉ value)
    (hurl : file.GetContentsURL = pre ++ "ref=".toList ++ value)
    (hpatch : FindAllStringSubmatch patchRegex file.GetPatch ≠ []) :
    ∃ info, getCommitInfo file = .ok info ∧ info.sha = value := by
  obtain ⟨m, hm⟩ := FindAll_patch_ne_nil hpatch
  have hu : file.GetContentsURL = pre ++ 'r' :: 'e' :: 'f' :: '=' :: value := by
    rw [hurl, toList_ref]; simp
  have hh := run_commitRefRegex_head pre value hpre (dot_of_not_mem hpreLF) hval
    (dot_of_not_mem hvalLF) (by
      intro x y e
      exfalso
      apply heq
      rw [e]
      simp) true
  rw [getCommitInfo_eq, hm, hu]
  simp only [findFrom_of_head true hh]
  exact ⟨_, rfl, rfl⟩

/-- C7 (witness): the reference `4f2c9a` of a contents URL. -/
theorem getCommitInfo_sha_witness :
    ∃ info, getCommitInfo (changedFile "main.tf" "@@ -10,5 +10,5 @@"
        "https://api.github.com/repos/o/r/contents/main.tf?ref=4f2c9a") = .ok info ∧
      info.sha = "4f2c9a".toList :=
  getCommitInfo_sha _ "https://api.github.com/repos/o/r/contents/main.tf?".toList
    "4f2c9a".toList (by decide) (by decide) (by decide) (by decide) (by decide) (by decide)
    (by rfl) (by decide!)

/-! ## C8 -/

/-- C8: when the patch resolves and the contents URL does not contain `ref=`,
`getCommitInfo` returns the sha error. -/
theorem getCommitInfo_sha_error (file : CommitFile)
    (hpatch : FindAllStringSubmatch patchRegex file.GetPatch ≠ [])
    (hurl : ¬ "ref=".toList <:+: file.GetContentsURL) :
    getCommitInfo file = .err "the sha details could not be resolved" := by
  obtain ⟨m, hm⟩ := FindAll_patch_ne_nil hpatch
  rw [getCommitInfo_eq, hm]
  cases hf : findFrom commitRefRegex true file.GetContentsURL with
  | none => rfl
  | some x =>
    exfalso
    apply hurl
    obtain ⟨t1, t2, b2, e, hx⟩ := findFrom_some _ _ _ _ hf
    rw [commitRefRegex_eq] at hx
    obtain ⟨d, t, m2, rfl, -, -, h2, -⟩ := mem_run_cat_rep hx
    obtain ⟨v, rfl, -, -, -⟩ := mem_run_refTail h2
    rw [e, toList_ref]
    exact ⟨t1 ++ d, v ++ m2.rest, by simp⟩

/-- C8 (witness): a contents URL without query component. -/
theorem getCommitInfo_sha_error_witness :
    getCommitInfo (changedFile "main.tf" "@@ -10,5 +10,5 @@"
        "https://api.github.com/repos/o/r/contents/main.tf") =
      .err "the sha details could not be resolved" :=
  getCommitInfo_sha_error _ (by decide!) (by decide!)

/-! ## C9 -/

/-- C9 (counterexample): first, the finding's normalized path is
`a/github/workspace/x.tf`, the path of the second changed file, on which
`getCommitInfo` fails; at the second file the loop compares the path normalized
once more, `ax.tf`, finds no match and returns an empty list without error.
Second, with two matched files that fail differently, the error returned is that
of the pair met first, not the sha error of the pair (`vpc.tf`, `vpc.tf`). -/
theorem renormalized_path_misses_failing_file :
    (normalizedPath "/github/workspace".toList
        (findingAt "/github/workspace/a/g/github/workspace/ithub/workspace/x.tf".toList 12 12) =
      "a/github/workspace/x.tf".toList ∧
    getCommitInfo (changedFile "a/github/workspace/x.tf" ""
        "https://api.github.com/repos/o/r/contents/a/github/workspace/x.tf?ref=abc") =
      .err "the patch details could not be resolved" ∧
    getRelevantResults "/github/workspace".toList
      (.ok [findingAt "/github/workspace/a/g/github/workspace/ithub/workspace/x.tf".toList 12 12])
      [changedFile "main.tf" "@@ -10,5 +10,5 @@"
          "https://api.github.com/repos/o/r/contents/main.tf?ref=abc",
        changedFile "a/github/workspace/x.tf" ""
          "https://api.github.com/repos/o/r/contents/a/github/workspace/x.tf?ref=abc"] =
      .ok []) ∧
    (normalizedPath "/github/workspace".toList
        (findingAt "/github/workspace/vpc.tf".toList 3 3) = "vpc.tf".toList ∧
    getCommitInfo (changedFile "vpc.tf" "@@ -1,4 +1,4 @@"
        "https://api.github.com/repos/o/r/contents/vpc.tf") =
      .err "the sha details could not be resolved" ∧
    getRelevantResults "/github/workspace".toList
      (.ok [findingAt "/github/workspace/main.tf".toList 12 12,
        findingAt "/github/workspace/vpc.tf".toList 3 3])
      [changedFile "main.tf" "" "https://api.github.com/repos/o/r/contents/main.tf?ref=abc",
        changedFile "vpc.tf" "@@ -1,4 +1,4 @@"
          "https://api.github.com/repos/o/r/contents/vpc.tf"] =
      .err "the patch details could not be resolved") := by
  refine ⟨⟨by decide!, by decide!, by decide!⟩, ⟨by decide!, by decide!, by decide!⟩⟩

/-- C9 (amended): when some finding's normalized path, which a further
normalization leaves unchanged, equals the path of a changed file on which
`getCommitInfo` fails, `getRelevantResults` returns no annotations but an error:
the `getCommitInfo` error of a changed file whose path compared equal to that of
a finding, which is that very error when no changed file fails with another one. -/
theorem getRelevantResults_aborts (root : Str) (results : List result)
    (files : List CommitFile) (r : result) (f : CommitFile) (e : String)
    (hr : r ∈ results) (hf : f ∈ files)
    (hstable : ReplaceAll (normalizedPath root r) (root ++ ['/']) [] = normalizedPath root r)
    (hmatch : normalizedPath root r = f.Filename) (hfail : getCommitInfo f = .err e) :
    (∃ r2 ∈ results, ∃ f2 ∈ files, ∃ k e2, 0 < k ∧
      (fun p => ReplaceAll p (root ++ ['/']) [])^[k] r2.Range.Filename = f2.Filename ∧
      getCommitInfo f2 = .err e2 ∧
      getRelevantResults root (.ok results) files = .err e2) ∧
    ((∀ f2 ∈ files, ∀ e2, getCommitInfo f2 = .err e2 → e2 = e) →
      getRelevantResults root (.ok results) files = .err e) := by
  have key := resultsLoop_aborts (root ++ ['/']) files r
    (fun acc => filesLoop_match_fail (root ++ ['/']) (normalizedPath root r) hstable f e hmatch
      hfail files r acc rfl hf) results [] hr
  refine ⟨key, ?_⟩
  intro hall
  obtain ⟨r2, -, f2, hf2, k, e2, -, -, he2, hres⟩ := key
  have hres2 : getRelevantResults root (.ok results) files = .err e2 := hres
  rw [hres2, hall f2 hf2 e2 he2]

/-- C9 (witness): the finding on `main.tf` is processed first and yields an annotation; the
finding on `logo.png`, whose patch is empty, makes the whole run fail. -/
theorem getRelevantResults_aborts_witness :
    getRelevantResults "/github/workspace".toList
      (.ok [findingAt "/github/workspace/main.tf".toList 12 12,
        findingAt "/github/workspace/logo.png".toList 1 1])
      [changedFile "main.tf" "@@ -10,5 +10,5 @@"
          "https://api.github.com/repos/o/r/contents/main.tf?ref=abc",
        changedFile "logo.png" ""
          "https://api.github.com/repos/o/r/contents/logo.png?ref=abc"] =
      .err "the patch details could not be resolved" :=
  (getRelevantResults_aborts "/github/workspace".toList _ _
    (findingAt "/github/workspace/logo.png".toList 1 1)
    (changedFile "logo.png" "" "https://api.github.com/repos/o/r/contents/logo.png?ref=abc")
    "the patch details could not be resolved"
    (by simp) (by simp) (by decide!) (by decide!) (by decide!)).2 (by
      intro f2 hf2 e2 he2
      simp only [List.mem_cons, List.mem_singleton, List.not_mem_nil, or_false] at hf2
      rcases hf2 with rfl | rfl
      · have h : getCommitInfo (changedFile "main.tf" "@@ -10,5 +10,5 @@"
            "https://api.github.com/repos/o/r/contents/main.tf?ref=abc") =
            .ok ⟨"main.tf".toList, 10, 5, "abc".toList⟩ := by decide!
        rw [h] at he2
        cases he2
      · have h : getCommitInfo (changedFile "logo.png" ""
            "https://api.github.com/repos/o/r/contents/logo.png?ref=abc") =
            .err "the patch details could not be resolved" := by decide!
        rw [h] at he2
        cases he2
        rfl)

/-! ## C10 -/

/-- C10 (counterexample): the finding's normalized path `a/github/workspace/x.tf`
is the path of no changed file, yet the path normalized once more, `ax.tf`, is that
of the second changed file, and the finding yields an annotation. -/
theorem renormalized_path_matches_other_file :
    normalizedPath "/github/workspace".toList
        (findingAt "/github/workspace/a/g/github/workspace/ithub/workspace/x.tf".toList 12 12) =
      "a/github/workspace/x.tf".toList ∧
    "a/github/workspace/x.tf".toList ∉ ["main.tf".toList, "ax.tf".toList] ∧
    getRelevantResults "/github/workspace".toList
      (.ok [findingAt "/github/workspace/a/g/github/workspace/ithub/workspace/x.tf".toList 12 12])
      [changedFile "main.tf" "@@ -10,5 +10,5 @@"
          "https://api.github.com/repos/o/r/contents/main.tf?ref=abc",
        changedFile "ax.tf" "@@ -10,5 +10,5 @@"
          "https://api.github.com/repos/o/r/contents/ax.tf?ref=abc"] =
      .ok [{ fileName := "ax.tf".toList, startLine := 12, endLine := 12, position := 2,
             sha := "abc".toList, code := "AWS002".toList,
             description := "Resource does not have logging enabled.".toList,
             provider := "aws".toList }] ∧
    getRelevantResults "/github/workspace".toList (.ok [])
      [changedFile "main.tf" "@@ -10,5 +10,5 @@"
          "https://api.github.com/repos/o/r/contents/main.tf?ref=abc",
        changedFile "ax.tf" "@@ -10,5 +10,5 @@"
          "https://api.github.com/repos/o/r/contents/ax.tf?ref=abc"] = .ok [] := by
  refine ⟨by decide!, by decide!, by decide!, by decide!⟩

/-- C10 (amended): a finding whose normalized path is left unchanged by a further
normalization and equals no changed file's path contributes nothing: the result
is the same as on the finding list without it; and when this holds for every
finding, the result is the empty list without error. -/
theorem getRelevantResults_unmatched (root : Str) (before after : List result) (r : result)
    (files : List CommitFile)
    (hstable : ReplaceAll (normalizedPath root r) (root ++ ['/']) [] = normalizedPath root r)
    (hno : ∀ f ∈ files, normalizedPath root r ≠ f.Filename) :
    getRelevantResults root (.ok (before ++ r :: after)) files =
      getRelevantResults root (.ok (before ++ after)) files ∧
    ((∀ r2 ∈ before ++ after,
        ReplaceAll (normalizedPath root r2) (root ++ ['/']) [] = normalizedPath root r2 ∧
        ∀ f ∈ files, normalizedPath root r2 ≠ f.Filename) →
      getRelevantResults root (.ok (before ++ r :: after)) files = .ok []) := by
  have step : ∀ (r2 : result),
      ReplaceAll (normalizedPath root r2) (root ++ ['/']) [] = normalizedPath root r2 →
      (∀ f ∈ files, normalizedPath root r2 ≠ f.Filename) →
      ∀ rest acc, resultsLoop (root ++ ['/']) files (r2 :: rest) acc =
        resultsLoop (root ++ ['/']) files rest acc := by
    intro r2 h1 h2 rest acc
    simp only [resultsLoop,
      filesLoop_no_match (root ++ ['/']) (normalizedPath root r2) h1 files r2 acc rfl h2]
  have e1 : getRelevantResults root (.ok (before ++ r :: after)) files =
      getRelevantResults root (.ok (before ++ after)) files := by
    simp only [getRelevantResults, resultsLoop_append]
    cases resultsLoop (root ++ ['/']) files before [] with
    | err e => rfl
    | ok acc2 => exact step r hstable hno after acc2
  refine ⟨e1, ?_⟩
  intro hall
  rw [e1]
  have all_nil : ∀ (l : List result), (∀ r2 ∈ l,
        ReplaceAll (normalizedPath root r2) (root ++ ['/']) [] = normalizedPath root r2 ∧
        ∀ f ∈ files, normalizedPath root r2 ≠ f.Filename) →
      resultsLoop (root ++ ['/']) files l [] = .ok [] := by
    intro l
    induction l with
    | nil => intro _; rfl
    | cons r2 l ih =>
      intro hl
      rw [step r2 (hl r2 (by simp)).1 (hl r2 (by simp)).2]
      exact ih (fun r3 h3 => hl r3 (by simp [h3]))
  exact all_nil _ hall

/-- C10 (witness): a finding on `modules/vpc.tf`, which is not among the changed files. -/
theorem getRelevantResults_unmatched_witness :
    getRelevantResults "/github/workspace".toList
      (.ok ([findingAt "/github/workspace/main.tf".toList 12 12] ++
        findingAt "/github/workspace/modules/vpc.tf".toList 3 4 :: []))
      [changedFile "main.tf" "@@ -10,5 +10,5 @@"
          "https://api.github.com/repos/o/r/contents/main.tf?ref=abc"] =
    getRelevantResults "/github/workspace".toList
      (.ok ([findingAt "/github/workspace/main.tf".toList 12 12] ++ []))
      [changedFile "main.tf" "@@ -10,5 +10,5 @@"
          "https://api.github.com/repos/o/r/contents/main.tf?ref=abc"] :=
  (getRelevantResults_unmatched "/github/workspace".toList
    [findingAt "/github/workspace/main.tf".toList 12 12] []
    (findingAt "/github/workspace/modules/vpc.tf".toList 3 4)
    [changedFile "main.tf" "@@ -10,5 +10,5 @@"
      "https://api.github.com/repos/o/r/contents/main.tf?ref=abc"]
    (by decide!) (by decide!)).1

/-! ## C11 -/

/-- C11: a finding whose reported path is the workspace root, `/` and a path `p`
without occurrence of the root followed by `/` is normalized to `p`, stays `p` at
every round, and is therefore matched with a changed file of path `p`: on that
pair the hunk parser is called and the inclusion filter decides. -/
theorem normalization_of_workspace_path (root p : Str) (r : result) (f : CommitFile)
    (hp : ¬ (root ++ ['/']) <:+: p) (hr : r.Range.Filename = root ++ ['/'] ++ p)
    (hf : f.Filename = p) :
    normalizedPath root r = p ∧
    (∀ k, 0 < k → ((stripWorkspace (root ++ ['/']))^[k] r).Range.Filename = f.Filename) ∧
    getRelevantResults root (.ok [r]) [f] =
      match getCommitInfo f with
      | .err e => .err e
      | .ok info => if shouldInclude r info then .ok [annotationOf r info] else .ok [] := by
  have h0 : root ++ ['/'] ≠ [] := by simp
  have h1 : normalizedPath root r = p := by
    unfold normalizedPath
    rw [hr, ReplaceAll_append_self p h0, ReplaceAll_of_no_occurrence p h0 hp]
  have h2 : ReplaceAll (ReplaceAll r.Range.Filename (root ++ ['/']) []) (root ++ ['/']) [] =
      ReplaceAll r.Range.Filename (root ++ ['/']) [] := by
    have : ReplaceAll r.Range.Filename (root ++ ['/']) [] = p := h1
    rw [this, ReplaceAll_of_no_occurrence p h0 hp]
  refine ⟨h1, ?_, getRelevantResults_single root r f (h1.trans hf.symm)⟩
  intro k hk
  rw [stripWorkspace_iterate, iterate_of_stable _ _ h2 k hk, hf]
  exact h1

/-- C11 (witness): with the root `/workspace`, the finding path
`/workspace/pkg/file.go` matches the changed file `pkg/file.go`. -/
theorem normalization_of_workspace_path_witness :
    normalizedPath "/workspace".toList (findingAt "/workspace/pkg/file.go".toList 12 12) =
      "pkg/file.go".toList ∧
    getRelevantResults "/workspace".toList
      (.ok [findingAt "/workspace/pkg/file.go".toList 12 12])
      [changedFile "pkg/file.go" "@@ -10,5 +10,5 @@"
        "https://api.github.com/repos/o/r/contents/pkg/file.go?ref=abc"] =
      .ok [⟨"pkg/file.go".toList, 12, 12, 2, "abc".toList, "AWS002".toList,
        "Resource does not have logging enabled.".toList, "aws".toList⟩] :=
  ⟨(normalization_of_workspace_path "/workspace".toList "pkg/file.go".toList
      (findingAt "/workspace/pkg/file.go".toList 12 12)
      (changedFile "pkg/file.go" "@@ -10,5 +10,5 @@"
        "https://api.github.com/repos/o/r/contents/pkg/file.go?ref=abc")
      (by decide!) (by rfl) (by rfl)).1,
    ((normalization_of_workspace_path "/workspace".toList "pkg/file.go".toList
      (findingAt "/workspace/pkg/file.go".toList 12 12)
      (changedFile "pkg/file.go" "@@ -10,5 +10,5 @@"
        "https://api.github.com/repos/o/r/contents/pkg/file.go?ref=abc")
      (by decide!) (by rfl) (by rfl)).2.2).trans (by decide!)⟩

/-! ## C12 -/

/-- C12 (counterexample): the hunk `+10,5` covers the lines 10 to 14; the finding
on its last line 14 is included and gets an annotation. -/
theorem last_line_of_hunk_included :
    getCommitInfo (changedFile "main.tf" "@@ -10,5 +10,5 @@"
        "https://api.github.com/repos/o/r/contents/main.tf?ref=abc") =
      .ok ⟨"main.tf".toList, 10, 5, "abc".toList⟩ ∧
    (14 : Int) = 10 + 5 - 1 ∧
    shouldInclude (findingAt "main.tf".toList 14 14) ⟨"main.tf".toList, 10, 5, "abc".toList⟩
      = true ∧
    getRelevantResults "/github/workspace".toList
      (.ok [findingAt "/github/workspace/main.tf".toList 14 14])
      [changedFile "main.tf" "@@ -10,5 +10,5 @@"
        "https://api.github.com/repos/o/r/contents/main.tf?ref=abc"] =
      .ok [⟨"main.tf".toList, 14, 14, 4, "abc".toList, "AWS002".toList,
        "Resource does not have logging enabled.".toList, "aws".toList⟩] := by
  refine ⟨by decide!, by decide, by decide!, by decide!⟩

/-- C12 (amended): for a hunk with start `s` and count `c` of at least 1,
`shouldInclude` is false for a finding on the hunk's first line `s` and for one
on the line `s + c` after its last line; a finding on the last line `s + c - 1`
is included when `c` is at least 2 and `s + c` fits an `int`. -/
theorem shouldInclude_boundaries (r : result) (info : commitFileInfo)
    (hs : minInt ≤ info.hunkStart) (hc : 1 ≤ info.hunkEnd) :
    (r.Range.StartLine = info.hunkStart → shouldInclude r info = false) ∧
    (r.Range.StartLine = info.hunkStart + info.hunkEnd → shouldInclude r info = false) ∧
    (r.Range.StartLine = info.hunkStart + info.hunkEnd - 1 → 2 ≤ info.hunkEnd →
      info.hunkStart + info.hunkEnd ≤ maxInt → shouldInclude r info = true) := by
  refine ⟨?_, ?_, ?_⟩
  · intro h
    simp [shouldInclude, h]
  · intro h
    have : ¬ r.Range.StartLine < wrapInt (info.hunkStart + info.hunkEnd) := by
      rw [h]; unfold wrapInt; unfold minInt at hs; omega
    simp [shouldInclude, this]
  · intro h h2 hfit
    have hw : wrapInt (info.hunkStart + info.hunkEnd) = info.hunkStart + info.hunkEnd :=
      wrapInt_eq_self (by unfold minInt at *; omega) hfit
    simp only [shouldInclude, hw, Bool.and_eq_true, decide_eq_true_eq]
    omega

/-- C12 (witness): with the hunk `+10,5`, the lines 10 and 15 are excluded and
the last line 14 is included. -/
theorem shouldInclude_boundaries_witness :
    shouldInclude (findingAt "main.tf".toList 10 10) ⟨"main.tf".toList, 10, 5, "abc".toList⟩
      = false ∧
    shouldInclude (findingAt "main.tf".toList 15 15) ⟨"main.tf".toList, 10, 5, "abc".toList⟩
      = false ∧
    shouldInclude (findingAt "main.tf".toList 14 14) ⟨"main.tf".toList, 10, 5, "abc".toList⟩
      = true :=
  ⟨(shouldInclude_boundaries (findingAt "main.tf".toList 10 10)
      ⟨"main.tf".toList, 10, 5, "abc".toList⟩ (by decide) (by decide)).1 rfl,
    (shouldInclude_boundaries (findingAt "main.tf".toList 15 15)
      ⟨"main.tf".toList, 10, 5, "abc".toList⟩ (by decide) (by decide)).2.1 rfl,
    (shouldInclude_boundaries (findingAt "main.tf".toList 14 14)
      ⟨"main.tf".toList, 10, 5, "abc".toList⟩ (by decide) (by decide)).2.2 rfl (by decide)
      (by decide)⟩

/-! ## C13 -/

/-- C13 (counterexample): an occurrence of the root inside the path is removed
as well: the finding on `docs/github/workspace/main.tf` is compared as
`docsmain.tf`, whether or not its reported path starts with the root, and does
not match the changed file. -/
theorem inner_occurrence_removed :
    "/github/workspace/docs/github/workspace/main.tf".toList =
      "/github/workspace".toList ++ ['/'] ++ "docs/github/workspace/main.tf".toList ∧
    normalizedPath "/github/workspace".toList
        (findingAt "/github/workspace/docs/github/workspace/main.tf".toList 12 12) =
      "docsmain.tf".toList ∧
    ("/github/workspace".toList ++ ['/']).isPrefixOf "docs/github/workspace/main.tf".toList =
      false ∧
    normalizedPath "/github/workspace".toList
        (findingAt "docs/github/workspace/main.tf".toList 12 12) = "docsmain.tf".toList ∧
    getRelevantResults "/github/workspace".toList
      (.ok [findingAt "/github/workspace/docs/github/workspace/main.tf".toList 12 12])
      [changedFile "docs/github/workspace/main.tf" "@@ -10,5 +10,5 @@"
        "https://api.github.com/repos/o/r/contents/docs/github/workspace/main.tf?ref=abc"] =
      .ok [] := by
  refine ⟨by rfl, by decide!, by decide!, by decide!, by decide!⟩

/-- C13 (amended): a round of normalization removes the occurrences of the root
followed by `/` wherever they stand, from left to right: a path without
occurrence is left as it is, and in a path `x`, root, `/`, `y` in which no
occurrence starts inside `x` the round gives `x` followed by the round on `y`.
Every round of the inner loop normalizes the path of the round before, so for
`p` without occurrence the path is `p` at every round, both when the finding's
path is the root, `/` and `p`, and when it is `p` itself. The path compared with
the changed file at position `j` is that of round `j + 1`: a run on the finding
that succeeds returns the annotations of the files whose path is that of their
round, and a run fails when it is the path of a file on which `getCommitInfo`
fails. -/
theorem normalization_strips_occurrences (root : Str) (r : result) :
    (¬ (root ++ ['/']) <:+: r.Range.Filename → normalizedPath root r = r.Range.Filename) ∧
    (∀ x y, r.Range.Filename = x ++ (root ++ ['/']) ++ y → ¬ (root ++ ['/']) <:+: x ++ root →
      normalizedPath root r = x ++ ReplaceAll y (root ++ ['/']) []) ∧
    (∀ k, ((stripWorkspace (root ++ ['/']))^[k + 1] r).Range.Filename =
      normalizedPath root ((stripWorkspace (root ++ ['/']))^[k] r)) ∧
    (∀ p, ¬ (root ++ ['/']) <:+: p →
      r.Range.Filename = root ++ ['/'] ++ p ∨ r.Range.Filename = p →
      ∀ k, 0 < k → ((stripWorkspace (root ++ ['/']))^[k] r).Range.Filename = p) ∧
    (∀ f, getRelevantResults root (.ok [r]) [f] =
      if normalizedPath root r = f.Filename then
        match getCommitInfo f with
        | .err e => .err e
        | .ok info => if shouldInclude r info then .ok [annotationOf r info] else .ok []
      else .ok []) ∧
    (∀ files blocks, getRelevantResults root (.ok [r]) files = .ok blocks →
      blocks = files.enum.filterMap fun x =>
        if ((stripWorkspace (root ++ ['/']))^[x.1 + 1] r).Range.Filename = x.2.Filename then
          match getCommitInfo x.2 with
          | .ok info => if shouldInclude r info then some (annotationOf r info) else none
          | .err _ => none
        else none) ∧
    (∀ F1 f F2 e,
      ((stripWorkspace (root ++ ['/']))^[F1.length + 1] r).Range.Filename = f.Filename →
      getCommitInfo f = .err e →
      ∃ e2, getRelevantResults root (.ok [r]) (F1 ++ f :: F2) = .err e2) := by
  have h0 : root ++ ['/'] ≠ [] := by simp
  refine ⟨fun h => ReplaceAll_of_no_occurrence _ h0 h, ?_, ?_, ?_,
    getRelevantResults_single_eq root r, ?_, ?_⟩
  · intro x y hr hx
    unfold normalizedPath
    rw [hr]
    exact ReplaceAll_leftmost x y h0 (by simpa using hx)
  · intro k
    rw [Function.iterate_succ_apply']
    rfl
  · intro p hp hr k hk
    have hpp := ReplaceAll_of_no_occurrence p h0 hp
    have h1 : ReplaceAll r.Range.Filename (root ++ ['/']) [] = p := by
      rcases hr with hr | hr
      · rw [hr, ReplaceAll_append_self p h0, hpp]
      · rw [hr, hpp]
    rw [stripWorkspace_iterate, iterate_of_stable _ _ (by rw [h1, hpp]) k hk, h1]
  · intro files blocks h
    have h1 : resultsLoop (root ++ ['/']) files [r] [] = .ok blocks := h
    have h2 := resultsLoop_eq_flatMap (root ++ ['/']) files [r] [] blocks h1
    simp only [List.flatMap_cons, List.flatMap_nil, List.append_nil, List.nil_append] at h2
    rw [h2]
    congr 1
    funext x
    simp only [annotationOfPair, stripWorkspace_iterate]
  · intro F1 f F2 e hpath hfail
    obtain ⟨e2, he2⟩ := filesLoop_abort_at (root ++ ['/']) f F2 e hfail F1 r []
      (by rw [← stripWorkspace_iterate]; exact hpath)
    exact ⟨e2, by simp only [getRelevantResults, resultsLoop, he2]⟩

/-- C13 (witness): in `/github/workspace/github/workspace/x.tf` the leading
occurrence is removed and the one that overlaps it is not; in
`docs/github/workspace/main.tf` the inner occurrence is removed;
`/github/workspace/modules/vpc.tf` and `modules/vpc.tf` are both compared as
`modules/vpc.tf`, also at the third changed file. -/
theorem normalization_strips_occurrences_witness :
    normalizedPath "/github/workspace".toList
        (findingAt "/github/workspace/github/workspace/x.tf".toList 12 12) =
      "github/workspace/x.tf".toList ∧
    normalizedPath "/github/workspace".toList
        (findingAt "docs/github/workspace/main.tf".toList 12 12) = "docsmain.tf".toList ∧
    ((stripWorkspace ("/github/workspace".toList ++ ['/']))^[3]
        (findingAt "/github/workspace/modules/vpc.tf".toList 12 12)).Range.Filename =
      "modules/vpc.tf".toList ∧
    ((stripWorkspace ("/github/workspace".toList ++ ['/']))^[3]
        (findingAt "modules/vpc.tf".toList 12 12)).Range.Filename = "modules/vpc.tf".toList :=
  ⟨((normalization_strips_occurrences "/github/workspace".toList
      (findingAt "/github/workspace/github/workspace/x.tf".toList 12 12)).2.1
      [] "github/workspace/x.tf".toList (by rfl) (by decide!)).trans (by decide!),
    ((normalization_strips_occurrences "/github/workspace".toList
      (findingAt "docs/github/workspace/main.tf".toList 12 12)).2.1
      "docs".toList "main.tf".toList (by rfl) (by decide!)).trans (by decide!),
    (normalization_strips_occurrences "/github/workspace".toList
      (findingAt "/github/workspace/modules/vpc.tf".toList 12 12)).2.2.2.1
      "modules/vpc.tf".toList (by decide!) (Or.inl (by rfl)) 3 (by decide),
    (normalization_strips_occurrences "/github/workspace".toList
      (findingAt "modules/vpc.tf".toList 12 12)).2.2.2.1
      "modules/vpc.tf".toList (by decide!) (Or.inr (by rfl)) 3 (by decide)⟩

/-! ## C14 -/

/-- C14 (counterexample): one finding gives two annotations, first when the
changed-file list has the same path twice, second when the finding's path,
normalized again, matches a second changed file. -/
theorem one_finding_two_annotations :
    getRelevantResults "/github/workspace".toList
      (.ok [findingAt "/github/workspace/main.tf".toList 12 12])
      [changedFile "main.tf" "@@ -10,5 +10,5 @@"
          "https://api.github.com/repos/o/r/contents/main.tf?ref=abc",
        changedFile "main.tf" "@@ -10,5 +10,5 @@"
          "https://api.github.com/repos/o/r/contents/main.tf?ref=abc"] =
      .ok [⟨"main.tf".toList, 12, 12, 2, "abc".toList, "AWS002".toList,
          "Resource does not have logging enabled.".toList, "aws".toList⟩,
        ⟨"main.tf".toList, 12, 12, 2, "abc".toList, "AWS002".toList,
          "Resource does not have logging enabled.".toList, "aws".toList⟩] ∧
    getRelevantResults "/github/workspace".toList
      (.ok [findingAt "/github/workspace/a/g/github/workspace/ithub/workspace/x.tf".toList 12 12])
      [changedFile "a/github/workspace/x.tf" "@@ -10,5 +10,5 @@"
          "https://api.github.com/repos/o/r/contents/a/github/workspace/x.tf?ref=abc",
        changedFile "ax.tf" "@@ -11,5 +11,5 @@"
          "https://api.github.com/repos/o/r/contents/ax.tf?ref=abc"] =
      .ok [⟨"a/github/workspace/x.tf".toList, 12, 12, 2, "abc".toList, "AWS002".toList,
          "Resource does not have logging enabled.".toList, "aws".toList⟩,
        ⟨"ax.tf".toList, 12, 12, 1, "abc".toList, "AWS002".toList,
          "Resource does not have logging enabled.".toList, "aws".toList⟩] := by
  refine ⟨by decide!, by decide!⟩

/-- C14 (amended): when the changed files have pairwise distinct paths and every
finding's normalized path is left unchanged by a further normalization, a
successful run gives at most one annotation for each finding, and the output is
not longer than the finding list. -/
theorem getRelevantResults_at_most_one (root : Str) (results : List result)
    (files : List CommitFile) (blocks : List commentBlock)
    (hfiles : (files.map fun f => f.Filename).Nodup)
    (hstable : ∀ r ∈ results,
      ReplaceAll (normalizedPath root r) (root ++ ['/']) [] = normalizedPath root r)
    (h : getRelevantResults root (.ok results) files = .ok blocks) :
    (∀ r ∈ results, ∃ p, getRelevantResults root (.ok [r]) files = .ok p ∧ p.length ≤ 1) ∧
    blocks.length ≤ results.length := by
  have hone : ∀ r ∈ results, ∀ p, filesLoop (root ++ ['/']) files r [] = .ok p → p.length ≤ 1 := by
    intro r hr p hp
    obtain ⟨new, e, hlen⟩ := filesLoop_at_most_one (root ++ ['/']) (normalizedPath root r)
      (hstable r hr) files r [] p rfl hfiles hp
    rw [e]; simpa using hlen
  constructor
  · intro r hr
    obtain ⟨p, hp⟩ := resultsLoop_ok_mem (root ++ ['/']) files results [] blocks h r hr
    refine ⟨p, ?_, hone r hr p hp⟩
    simp only [getRelevantResults, resultsLoop, hp]
  · simpa using resultsLoop_length (root ++ ['/']) files results [] blocks hone h

/-- C14 (witness): of three findings on two changed files, the one on the first line of its hunk
gives no annotation and the two others give one each. -/
theorem getRelevantResults_at_most_one_witness :
    getRelevantResults "/github/workspace".toList
      (.ok [findingAt "/github/workspace/main.tf".toList 12 12,
        findingAt "/github/workspace/vpc.tf".toList 1 1,
        findingAt "/github/workspace/main.tf".toList 13 14])
      [changedFile "main.tf" "@@ -10,5 +10,5 @@"
          "https://api.github.com/repos/o/r/contents/main.tf?ref=abc",
        changedFile "vpc.tf" "@@ -1,9 +1,8 @@"
          "https://api.github.com/repos/o/r/contents/vpc.tf?ref=abc"] =
      .ok [⟨"main.tf".toList, 12, 12, 2, "abc".toList, "AWS002".toList,
          "Resource does not have logging enabled.".toList, "aws".toList⟩,
        ⟨"main.tf".toList, 13, 14, 3, "abc".toList, "AWS002".toList,
          "Resource does not have logging enabled.".toList, "aws".toList⟩] ∧
    (2 : Nat) ≤ 3 :=
  ⟨by decide!,
    (getRelevantResults_at_most_one "/github/workspace".toList
      [findingAt "/github/workspace/main.tf".toList 12 12,
        findingAt "/github/workspace/vpc.tf".toList 1 1,
        findingAt "/github/workspace/main.tf".toList 13 14]
      [changedFile "main.tf" "@@ -10,5 +10,5 @@"
          "https://api.github.com/repos/o/r/contents/main.tf?ref=abc",
        changedFile "vpc.tf" "@@ -1,9 +1,8 @@"
          "https://api.github.com/repos/o/r/contents/vpc.tf?ref=abc"]
      [⟨"main.tf".toList, 12, 12, 2, "abc".toList, "AWS002".toList,
          "Resource does not have logging enabled.".toList, "aws".toList⟩,
        ⟨"main.tf".toList, 13, 14, 3, "abc".toList, "AWS002".toList,
          "Resource does not have logging enabled.".toList, "aws".toList⟩]
      (by decide!) (by decide!) (by decide!)).2⟩

/-! ## C15 -/

/-- C15: the output of a successful run is the concatenation, over the findings
in input order, of each finding's annotations in changed-file list order; and the
result on a finding list `A ++ B` is the result on `A` followed by the result on
`B`. -/
theorem getRelevantResults_order (root : Str) (results : List result)
    (files : List CommitFile) (blocks : List commentBlock)
    (h : getRelevantResults root (.ok results) files = .ok blocks) :
    blocks = annotationsInOrder root results files ∧
    ∀ A B, results = A ++ B →
      ∃ X Y, getRelevantResults root (.ok A) files = .ok X ∧
        getRelevantResults root (.ok B) files = .ok Y ∧ blocks = X ++ Y := by
  constructor
  · simpa [annotationsInOrder] using
      resultsLoop_eq_flatMap (root ++ ['/']) files results [] blocks h
  · rintro A B rfl
    simp only [getRelevantResults, resultsLoop_append] at h
    cases hA : resultsLoop (root ++ ['/']) files A [] with
    | err e => simp [hA] at h
    | ok X =>
      simp only [hA] at h
      rw [resultsLoop_acc] at h
      cases hB : resultsLoop (root ++ ['/']) files B [] with
      | err e => simp [hB] at h
      | ok Y =>
        simp only [hB, Outcome.ok.injEq] at h
        exact ⟨X, Y, hA, hB, h.symm⟩

/-- C15 (witness): two findings on `vpc.tf` and `main.tf`, changed files in the
other order: the annotations come in the order of the findings. -/
theorem getRelevantResults_order_witness :
    getRelevantResults "/github/workspace".toList
      (.ok [findingAt "/github/workspace/vpc.tf".toList 3 3,
        findingAt "/github/workspace/main.tf".toList 12 12])
      [changedFile "main.tf" "@@ -10,5 +10,5 @@"
          "https://api.github.com/repos/o/r/contents/main.tf?ref=abc",
        changedFile "vpc.tf" "@@ -1,9 +1,8 @@"
          "https://api.github.com/repos/o/r/contents/vpc.tf?ref=abc"] =
      .ok [⟨"vpc.tf".toList, 3, 3, 2, "abc".toList, "AWS002".toList,
          "Resource does not have logging enabled.".toList, "aws".toList⟩,
        ⟨"main.tf".toList, 12, 12, 2, "abc".toList, "AWS002".toList,
          "Resource does not have logging enabled.".toList, "aws".toList⟩] ∧
    [(⟨"vpc.tf".toList, 3, 3, 2, "abc".toList, "AWS002".toList,
          "Resource does not have logging enabled.".toList, "aws".toList⟩ : commentBlock),
        ⟨"main.tf".toList, 12, 12, 2, "abc".toList, "AWS002".toList,
          "Resource does not have logging enabled.".toList, "aws".toList⟩] =
      annotationsInOrder "/github/workspace".toList
        [findingAt "/github/workspace/vpc.tf".toList 3 3,
          findingAt "/github/workspace/main.tf".toList 12 12]
        [changedFile "main.tf" "@@ -10,5 +10,5 @@"
            "https://api.github.com/repos/o/r/contents/main.tf?ref=abc",
          changedFile "vpc.tf" "@@ -1,9 +1,8 @@"
            "https://api.github.com/repos/o/r/contents/vpc.tf?ref=abc"] :=
  ⟨by decide!, (getRelevantResults_order "/github/workspace".toList _ _ _ (by decide!)).1⟩

/-! ## C16 -/

/-- C16 (counterexample): `getCommitInfo` fails on `ax.tf` only, and no finding's
normalized path is `ax.tf`; yet the finding's path, normalized again at the
second file, is `ax.tf`, and the run fails. -/
theorem renormalized_path_hits_failing_file :
    normalizedPath "/github/workspace".toList
        (findingAt "/github/workspace/a/g/github/workspace/ithub/workspace/x.tf".toList 12 12) =
      "a/github/workspace/x.tf".toList ∧
    "a/github/workspace/x.tf".toList ∉ ["main.tf".toList, "ax.tf".toList] ∧
    getCommitInfo (changedFile "main.tf" "@@ -10,5 +10,5 @@"
        "https://api.github.com/repos/o/r/contents/main.tf?ref=abc") =
      .ok ⟨"main.tf".toList, 10, 5, "abc".toList⟩ ∧
    getRelevantResults "/github/workspace".toList
      (.ok [findingAt "/github/workspace/a/g/github/workspace/ithub/workspace/x.tf".toList 12 12])
      [changedFile "main.tf" "@@ -10,5 +10,5 @@"
          "https://api.github.com/repos/o/r/contents/main.tf?ref=abc",
        changedFile "ax.tf" "" "https://api.github.com/repos/o/r/contents/ax.tf?ref=abc"] =
      .err "the patch details could not be resolved" := by
  refine ⟨by decide!, by decide!, by decide!, by decide!⟩

/-- C16 (amended): when every finding's normalized path is left unchanged by a
further normalization and `getCommitInfo` succeeds on every changed file whose
path is some finding's normalized path, `getRelevantResults` returns without
error, whatever the other changed files are. -/
theorem getRelevantResults_succeeds (root : Str) (results : List result)
    (files : List CommitFile)
    (hstable : ∀ r ∈ results,
      ReplaceAll (normalizedPath root r) (root ++ ['/']) [] = normalizedPath root r)
    (hok : ∀ f ∈ files, (∃ r ∈ results, normalizedPath root r = f.Filename) →
      ∃ info, getCommitInfo f = .ok info) :
    ∃ blocks, getRelevantResults root (.ok results) files = .ok blocks := by
  cases h : getRelevantResults root (.ok results) files with
  | ok blocks => exact ⟨blocks, rfl⟩
  | err e =>
    exfalso
    obtain ⟨r, hr, f, hf, k, hk, hpath, he⟩ :=
      resultsLoop_err (root ++ ['/']) files results [] e h
    rw [iterate_of_stable _ _ (hstable r hr) k hk] at hpath
    obtain ⟨info, hinfo⟩ := hok f hf ⟨r, hr, hpath⟩
    rw [hinfo] at he
    cases he

/-- C16 (witness): findings on a matched file inside and outside the hunk and on
a file that did not change, next to changed files without patch and without
reference: the run succeeds. -/
theorem getRelevantResults_succeeds_witness :
    ∃ blocks, getRelevantResults "/github/workspace".toList
      (.ok [findingAt "/github/workspace/main.tf".toList 12 12,
        findingAt "/github/workspace/main.tf".toList 40 41,
        findingAt "/github/workspace/vpc.tf".toList 3 3])
      [changedFile "logo.png" "" "https://api.github.com/repos/o/r/contents/logo.png?ref=abc",
        changedFile "main.tf" "@@ -10,5 +10,5 @@"
          "https://api.github.com/repos/o/r/contents/main.tf?ref=abc",
        changedFile "README.md" "@@ -1,2 +1,2 @@"
          "https://api.github.com/repos/o/r/contents/README.md"] = .ok blocks :=
  getRelevantResults_succeeds "/github/workspace".toList _ _ (by decide!) (by
    intro f hf hex
    simp only [List.mem_cons, List.mem_singleton, List.not_mem_nil, or_false] at hf
    rcases hf with rfl | rfl | rfl
    · exfalso
      obtain ⟨r, hr, h⟩ := hex
      simp only [List.mem_cons, List.mem_singleton, List.not_mem_nil, or_false] at hr
      rcases hr with rfl | rfl | rfl <;> exact absurd h (by decide!)
    · exact ⟨⟨"main.tf".toList, 10, 5, "abc".toList⟩, by decide!⟩
    · exfalso
      obtain ⟨r, hr, h⟩ := hex
      simp only [List.mem_cons, List.mem_singleton, List.not_mem_nil, or_false] at hr
      rcases hr with rfl | rfl | rfl <;> exact absurd h (by decide!))

/-! ## C17 -/

/-- C17 (counterexample): the hunk start `99999999999999999999` does not convert;
`getCommitInfo` takes it as 9223372036854775807, not as 0. -/
theorem failed_conversion_is_not_zero :
    Atoi "99999999999999999999".toList = (9223372036854775807, false) ∧
    getCommitInfo (changedFile "main.tf" "@@ -1,1 +99999999999999999999,5 @@"
        "https://api.github.com/repos/o/r/contents/main.tf?ref=abc") =
      .ok ⟨"main.tf".toList, 9223372036854775807, 5, "abc".toList⟩ := by
  refine ⟨by decide!, by decide!⟩

/-- C17 (amended): when the patch matches the pattern and the reference
resolves, `getCommitInfo` succeeds whether or not the two captured fields
convert. The fields are non-empty digit strings; the conversion of one fails
exactly when its value exceeds the largest `int`, and the field is then taken as
the largest `int`. -/
theorem getCommitInfo_ignores_conversion_error (file : CommitFile)
    (hpatch : FindAllStringSubmatch patchRegex file.GetPatch ≠ [])
    (hurl : FindAllStringSubmatch commitRefRegex file.GetContentsURL ≠ []) :
    ∃ whole d1 d2 tl info,
      FindAllStringSubmatch patchRegex file.GetPatch = [whole, d1, d2] :: tl ∧
      IsNumber d1 ∧ IsNumber d2 ∧ getCommitInfo file = .ok info ∧
      info.hunkStart = (Atoi d1).1 ∧ info.hunkEnd = (Atoi d2).1 ∧
      ((Atoi d1).2 = false ↔ maxInt < (decimalValue d1 : Int)) ∧
      ((Atoi d2).2 = false ↔ maxInt < (decimalValue d2 : Int)) ∧
      ((Atoi d1).2 = false → info.hunkStart = maxInt) ∧
      ((Atoi d2).2 = false → info.hunkEnd = maxInt) := by
  obtain ⟨m, hm⟩ := FindAll_patch_ne_nil hpatch
  obtain ⟨x, hx⟩ := FindAll_ne_nil hurl
  obtain ⟨_, d1, d2, _, -, hc, -, p1, p2, p3, p4, -, -⟩ :=
    mem_run_patchRegex (List.mem_of_mem_head? hm)
  have hfind : findFrom patchRegex true file.GetPatch = some (0, m) := by
    rw [findFrom_patchRegex, hm]; rfl
  obtain ⟨tl, htl⟩ := FindAll_of_some hfind
  have a1 := Atoi_digits_eq (d := d1) ⟨p1, p2⟩
  have a2 := Atoi_digits_eq (d := d2) ⟨p3, p4⟩
  refine ⟨m.consumed, d1, d2, tl,
    ⟨file.Filename, (Atoi d1).1, (Atoi d2).1, x.2.caps.getD 0 []⟩,
    by rw [htl, hc], ⟨p1, p2⟩, ⟨p3, p4⟩, ?_, ?_, ?_, ?_, ?_, ?_, ?_⟩
  · rw [getCommitInfo_eq, hm]
    simp only [hx, hc, List.getD_cons_zero, List.getD_cons_succ]
  · rfl
  · rfl
  · rw [a1]; split <;> simp <;> omega
  · rw [a2]; split <;> simp <;> omega
  · show _ → (Atoi d1).1 = maxInt
    rw [a1]; split <;> simp
  · show _ → (Atoi d2).1 = maxInt
    rw [a2]; split <;> simp

/-- C17 (witness): a hunk start that does not fit an `int`. -/
theorem getCommitInfo_ignores_conversion_error_witness :
    ∃ whole d1 d2 tl info,
      FindAllStringSubmatch patchRegex
        (changedFile "main.tf" "@@ -1,1 +99999999999999999999,5 @@"
          "https://api.github.com/repos/o/r/contents/main.tf?ref=abc").GetPatch =
        [whole, d1, d2] :: tl ∧
      IsNumber d1 ∧ IsNumber d2 ∧
      getCommitInfo (changedFile "main.tf" "@@ -1,1 +99999999999999999999,5 @@"
          "https://api.github.com/repos/o/r/contents/main.tf?ref=abc") = .ok info ∧
      info.hunkStart = (Atoi d1).1 ∧ info.hunkEnd = (Atoi d2).1 ∧
      ((Atoi d1).2 = false ↔ maxInt < (decimalValue d1 : Int)) ∧
      ((Atoi d2).2 = false ↔ maxInt < (decimalValue d2 : Int)) ∧
      ((Atoi d1).2 = false → info.hunkStart = maxInt) ∧
      ((Atoi d2).2 = false → info.hunkEnd = maxInt) :=
  getCommitInfo_ignores_conversion_error _ (by decide!) (by decide!)

/-! ## C18 -/

/-- C18: on a patch whose first line is a hunk header without new-side count,
`@@ -a,b +s @@` or `@@ -a +s @@`, `getCommitInfo` returns the patch error,
whatever the later lines and the URL are; so a run in which a finding's path
compares equal to the path of such a file returns an error. -/
theorem getCommitInfo_header_without_count (file : CommitFile) (a b s later : Str)
    (ha : IsNumber a) (hb : IsNumber b) (hs : IsNumber s)
    (hlater : later = [] ∨ ∃ t, later = '\n' :: t)
    (hpatch : file.GetPatch = "@@ -".toList ++ a ++ ",".toList ++ b ++ " +".toList ++ s ++
        " @@".toList ++ later ∨
      file.GetPatch = "@@ -".toList ++ a ++ " +".toList ++ s ++ " @@".toList ++ later) :
    getCommitInfo file = .err "the patch details could not be resolved" ∧
    ∀ (root : Str) (results : List result) (F1 F2 : List CommitFile) (r : result),
      r ∈ results →
      (fun p => ReplaceAll p (root ++ ['/']) [])^[F1.length + 1] r.Range.Filename =
        file.Filename →
      ∃ e, getRelevantResults root (.ok results) (F1 ++ file :: F2) = .err e := by
  have hrest : ∀ x t, later = x :: t → x = '\n' := by
    intro x t e
    rcases hlater with h | ⟨t2, h⟩
    · rw [h] at e; cases e
    · rw [h] at e
      simp only [List.cons.injEq] at e
      exact e.1.symm
  have hdig : ∀ {d : Str}, (∀ c ∈ d, digit c = true) → '+' ∉ d :=
    fun hd hmem => absurd (hd _ hmem) (by decide)
  have hnone : (run patchRegex true file.GetPatch).head? = none := by
    rcases hpatch with e | e
    · have e2 : file.GetPatch = '@' :: '@' :: ((' ' :: '-' :: (a ++ ',' :: (b ++ [' ']))) ++
          '+' :: (s ++ ' ' :: '@' :: '@' :: later)) := by
        rw [e]
        simp [show "@@ -".toList = ['@', '@', ' ', '-'] from rfl,
          show ",".toList = [','] from rfl, show " +".toList = [' ', '+'] from rfl,
          show " @@".toList = [' ', '@', '@'] from rfl]
      rw [e2, run_patchRegex_no_count _ s later ?_ hs.2 hrest]
      · rfl
      · intro hmem
        simp only [List.mem_append, List.mem_cons, List.mem_singleton, List.not_mem_nil,
          or_false] at hmem
        rcases hmem with hmem | hmem | hmem | hmem | hmem | hmem
        · exact absurd hmem (by decide)
        · exact absurd hmem (by decide)
        · exact hdig ha.2 hmem
        · exact absurd hmem (by decide)
        · exact hdig hb.2 hmem
        · exact absurd hmem (by decide)
    · have e2 : file.GetPatch = '@' :: '@' :: ((' ' :: '-' :: (a ++ [' '])) ++
          '+' :: (s ++ ' ' :: '@' :: '@' :: later)) := by
        rw [e]
        simp [show "@@ -".toList = ['@', '@', ' ', '-'] from rfl,
          show " +".toList = [' ', '+'] from rfl,
          show " @@".toList = [' ', '@', '@'] from rfl]
      rw [e2, run_patchRegex_no_count _ s later ?_ hs.2 hrest]
      · rfl
      · intro hmem
        simp only [List.mem_append, List.mem_cons, List.mem_singleton, List.not_mem_nil,
          or_false] at hmem
        rcases hmem with hmem | hmem | hmem | hmem
        · exact absurd hmem (by decide)
        · exact absurd hmem (by decide)
        · exact hdig ha.2 hmem
        · exact absurd hmem (by decide)
  have herr : getCommitInfo file = .err "the patch details could not be resolved" := by
    rw [getCommitInfo_eq, hnone]
  refine ⟨herr, ?_⟩
  intro root results F1 F2 r hr hpath
  obtain ⟨-, -, -, -, -, e, -, -, -, hres⟩ :=
    resultsLoop_aborts (root ++ ['/']) (F1 ++ file :: F2) r
      (fun acc => filesLoop_abort_at (root ++ ['/']) file F2 _ herr F1 r acc hpath) results [] hr
  exact ⟨e, hres⟩

/-- C18 (witness): a file whose only hunk has one new line, second in the list
of changed files: the parser fails on it, and the finding on it aborts the run. -/
theorem getCommitInfo_header_without_count_witness :
    getCommitInfo (changedFile "vpc.tf" "@@ -3,2 +3 @@\n-a\n-b\n+c"
        "https://api.github.com/repos/o/r/contents/vpc.tf?ref=abc") =
      .err "the patch details could not be resolved" ∧
    ∃ e, getRelevantResults "/github/workspace".toList
      (.ok [findingAt "/github/workspace/main.tf".toList 12 12,
        findingAt "/github/workspace/vpc.tf".toList 3 3])
      ([changedFile "main.tf" "@@ -10,5 +10,5 @@"
          "https://api.github.com/repos/o/r/contents/main.tf?ref=abc"] ++
        changedFile "vpc.tf" "@@ -3,2 +3 @@\n-a\n-b\n+c"
          "https://api.github.com/repos/o/r/contents/vpc.tf?ref=abc" :: []) = .err e :=
  ⟨(getCommitInfo_header_without_count _ "3".toList "2".toList "3".toList "\n-a\n-b\n+c".toList
      ⟨by decide, by decide⟩ ⟨by decide, by decide⟩ ⟨by decide, by decide⟩ (Or.inr ⟨_, rfl⟩)
      (Or.inl (by rfl))).1,
    (getCommitInfo_header_without_count _ "3".toList "2".toList "3".toList "\n-a\n-b\n+c".toList
      ⟨by decide, by decide⟩ ⟨by decide, by decide⟩ ⟨by decide, by decide⟩ (Or.inr ⟨_, rfl⟩)
      (Or.inl (by rfl))).2 "/github/workspace".toList _ _ []
      (findingAt "/github/workspace/vpc.tf".toList 3 3) (by simp) (by decide!)⟩

/-! ## C19 -/

/-- C19: for a contents URL without line break made of a non-empty prefix, `ref=`
and a non-empty rest `v` in which no `ref=` is followed by a further character,
and a patch that resolves, `sha` is the whole of `v`, `&` included. -/
theorem getCommitInfo_sha_whole_rest (file : CommitFile) (pre v : Str)
    (hpre : pre ≠ []) (hv0 : v ≠ []) (hLF : '\n' ∉ file.GetContentsURL)
    (hurl : file.GetContentsURL = pre ++ "ref=".toList ++ v)
    (hv : ∀ x y, v = x ++ "ref=".toList ++ y → y = [])
    (hpatch : FindAllStringSubmatch patchRegex file.GetPatch ≠ []) :
    ∃ info, getCommitInfo file = .ok info ∧ info.sha = v := by
  obtain ⟨m, hm⟩ := FindAll_patch_ne_nil hpatch
  have hu : file.GetContentsURL = pre ++ 'r' :: 'e' :: 'f' :: '=' :: v := by
    rw [hurl, toList_ref]; simp
  rw [hu] at hLF
  have hh := run_commitRefRegex_head pre v hpre
    (dot_of_not_mem (fun h => hLF (by simp [h]))) hv0
    (dot_of_not_mem (fun h => hLF (by simp [h]))) (by
      intro x y e
      exact hv x y (by rw [e, toList_ref]; simp)) true
  rw [getCommitInfo_eq, hm, hu]
  simp only [findFrom_of_head true hh]
  exact ⟨_, rfl, rfl⟩

/-- C19 (witness): `...?ref=abc&x=1` gives `abc&x=1`, and of the two components in
`...?ref=abc&ref=def` the last one, `def`, is returned. -/
theorem getCommitInfo_sha_whole_rest_witness :
    (∃ info, getCommitInfo (changedFile "main.tf" "@@ -10,5 +10,5 @@"
        "https://api.github.com/repos/o/r/contents/main.tf?ref=abc&x=1") = .ok info ∧
      info.sha = "abc&x=1".toList) ∧
    (∃ info, getCommitInfo (changedFile "main.tf" "@@ -10,5 +10,5 @@"
        "https://api.github.com/repos/o/r/contents/main.tf?ref=abc&ref=def") = .ok info ∧
      info.sha = "def".toList) :=
  ⟨getCommitInfo_sha_whole_rest _ "https://api.github.com/repos/o/r/contents/main.tf?".toList
    "abc&x=1".toList (by decide) (by decide) (by decide!) (by rfl) (by
      intro x y e
      exfalso
      have h : 'r' ∈ "abc&x=1".toList := by
        rw [e, toList_ref]; simp
      revert h
      decide) (by decide!),
  getCommitInfo_sha_whole_rest _
    "https://api.github.com/repos/o/r/contents/main.tf?ref=abc&".toList
    "def".toList (by decide) (by decide) (by decide!) (by rfl) (by
      intro x y e
      exfalso
      have h : 'r' ∈ "def".toList := by
        rw [e, toList_ref]; simp
      revert h
      decide) (by decide!)⟩

/-! ## C20 -/

/-- C20 (counterexample): the normalized path `a/github/workspace/x.tf` contains
the root again; normalized once more it is `ax.tf`, the path under which the
finding is compared with the second changed file. -/
theorem normalization_not_idempotent :
    normalizedPath "/github/workspace".toList
        (findingAt "/github/workspace/a/g/github/workspace/ithub/workspace/x.tf".toList 12 12) =
      "a/github/workspace/x.tf".toList ∧
    ReplaceAll "a/github/workspace/x.tf".toList ("/github/workspace".toList ++ ['/']) [] =
      "ax.tf".toList ∧
    ((stripWorkspace ("/github/workspace".toList ++ ['/']))^[1]
        (findingAt "/github/workspace/a/g/github/workspace/ithub/workspace/x.tf".toList 12
          12)).Range.Filename = "a/github/workspace/x.tf".toList ∧
    ((stripWorkspace ("/github/workspace".toList ++ ['/']))^[2]
        (findingAt "/github/workspace/a/g/github/workspace/ithub/workspace/x.tf".toList 12
          12)).Range.Filename = "ax.tf".toList := by
  refine ⟨by decide!, by decide!, by decide!, by decide!⟩

/-- C20 (amended): a second round of normalization changes the normalized path
exactly when it contains the root followed by `/` again. When it does not, every
round gives the same path, and the finding is compared with every changed file
under that one path. -/
theorem normalization_idempotent_iff (root : Str) (r : result) :
    (ReplaceAll (normalizedPath root r) (root ++ ['/']) [] = normalizedPath root r ↔
      ¬ (root ++ ['/']) <:+: normalizedPath root r) ∧
    (¬ (root ++ ['/']) <:+: normalizedPath root r →
      ∀ k, 0 < k →
        ((stripWorkspace (root ++ ['/']))^[k] r).Range.Filename = normalizedPath root r) := by
  have h0 : root ++ ['/'] ≠ [] := by simp
  refine ⟨ReplaceAll_eq_self_iff _ h0, ?_⟩
  intro h k hk
  rw [stripWorkspace_iterate]
  exact iterate_of_stable _ _ (ReplaceAll_of_no_occurrence _ h0 h) k hk

/-- C20 (witness): the path `/github/workspace/modules/vpc.tf` is compared as
`modules/vpc.tf` at the first and at the fifth changed file. -/
theorem normalization_idempotent_iff_witness :
    ((stripWorkspace ("/github/workspace".toList ++ ['/']))^[1]
        (findingAt "/github/workspace/modules/vpc.tf".toList 12 12)).Range.Filename =
      "modules/vpc.tf".toList ∧
    ((stripWorkspace ("/github/workspace".toList ++ ['/']))^[5]
        (findingAt "/github/workspace/modules/vpc.tf".toList 12 12)).Range.Filename =
      "modules/vpc.tf".toList :=
  ⟨((normalization_idempotent_iff "/github/workspace".toList
      (findingAt "/github/workspace/modules/vpc.tf".toList 12 12)).2 (by decide!) 1
      (by decide)).trans (by decide!),
    ((normalization_idempotent_iff "/github/workspace".toList
      (findingAt "/github/workspace/modules/vpc.tf".toList 12 12)).2 (by decide!) 5
      (by decide)).trans (by decide!)⟩

end ResultsProcessor
